import Mathlib

/-!
# Verification of the gemini-claude-code translation engine

A shallow embedding, in Lean 4, of the translation core of the
`gemini-claude-code` proxy (Anthropic Messages API ⇄ Google Gemini API):

* the JSON-schema sanitizer (`RequestConverter.sanitizeSchema`),
* the thought-signature ledger (`ThoughtSignatureService`),
* the request converter (tool-name resolution, message splitting),
* the response converter (`ResponseConverter.convertParts`, finish reasons),
* the streaming re-framer (`StreamConverter`) as an explicit state machine.

TypeScript classes become records, in-place mutation becomes explicit state
passing, and the random id generators become an injected `Nat → String`
supply.  JavaScript truthiness and `Map.set` / property-assignment semantics
are modelled explicitly where the source relies on them.
-/

set_option maxHeartbeats 1000000

/-! ## A model of JSON-shaped values

JavaScript objects are modelled as association lists in insertion order
(JS objects never hold duplicate keys; property assignment replaces the
value at the key's existing position or appends a fresh key at the end).
Numbers are modelled as integers; none of the verified code does numeric
computation on schema values.
-/

inductive JSON where
  | null
  | bool (b : Bool)
  | num (n : Int)
  | str (s : String)
  | arr (elems : List JSON)
  | obj (fields : List (String × JSON))

/-- Association-list lookup (first occurrence), i.e. JS property read. -/
def assocGet {α β : Type} [DecidableEq α] : List (α × β) → α → Option β
  | [], _ => none
  | (k', v') :: rest, k => if k' = k then some v' else assocGet rest k

/-- JS property assignment / `Map.set`: replace the value at an existing
key in place, otherwise append the new key at the end. -/
def assocSet {α β : Type} [DecidableEq α] : List (α × β) → α → β → List (α × β)
  | [], k, v => [(k, v)]
  | (k', v') :: rest, k, v =>
    if k' = k then (k, v) :: rest else (k', v') :: assocSet rest k v

/-- JS truthiness of a JSON value. -/
def jsTruthy : JSON → Bool
  | .null => false
  | .bool b => b
  | .num n => n ≠ 0
  | .str s => s ≠ ""
  | .arr _ => true
  | .obj _ => true

/-- Truthiness of a possibly-absent value (`undefined` is falsy). -/
def jsTruthyOpt : Option JSON → Bool
  | none => false
  | some v => jsTruthy v

mutual

/-- JS `String(x)` coercion. -/
def jsToString : JSON → String
  | .null => "null"
  | .bool true => "true"
  | .bool false => "false"
  | .num n => toString n
  | .str s => s
  | .arr xs => jsArrToString xs
  | .obj _ => "[object Object]"

/-- `Array.prototype.join(",")`: `null` elements render as the empty string. -/
def jsArrToString : List JSON → String
  | [] => ""
  | [x] => (match x with | .null => "" | y => jsToString y)
  | x :: rest =>
    (match x with | .null => "" | y => jsToString y) ++ "," ++ jsArrToString rest

end

/-! ## Gemini data model (`src/models/gemini.ts`)

`GeminiPart` is a union discriminated by which key is present
(`text` / `inlineData` / `functionCall` / `functionResponse`); any of the
first three may additionally carry a `thoughtSignature`.  Optional fields
become `Option`; the optional `thought` flag on text parts becomes a `Bool`
(absent ≡ `false` under JS truthiness).
-/

inductive GeminiPart where
  | text (text : String) (thought : Bool) (thoughtSignature : Option String)
  | inlineData (mimeType : String) (data : String) (thoughtSignature : Option String)
  | functionCall (name : String) (args : Option JSON) (thoughtSignature : Option String)
  | functionResponse (name : String) (response : JSON)

/-- A single conversational turn. -/
structure GeminiContent where
  role : String
  parts : List GeminiPart

/-- `"functionCall" in part` -/
def GeminiPart.isFunctionCall : GeminiPart → Bool
  | .functionCall _ _ _ => true
  | _ => false

/-- The `thoughtSignature` field of a part (absent on functionResponse parts). -/
def GeminiPart.signature : GeminiPart → Option String
  | .text _ _ s => s
  | .inlineData _ _ s => s
  | .functionCall _ _ s => s
  | .functionResponse _ _ => none

/-- Truthiness of an optional signature string (`if (sig) ...`). -/
def sigTruthy : Option String → Bool
  | none => false
  | some v => v ≠ ""

/-! ## ThoughtSignatureService (`src/services/thought-signature.ts`)

The per-request signature ledger.  The TS class holds a
`Map<string, string>` keyed by `` `${turnIndex}:{partIndex}` `` plus a
`lastTextSignature` scalar; we key the map by `(turnIndex, partIndex)`
directly (the TS key string is a bijective image of that pair for the
indices that ever occur).
-/

/-- Sentinel value telling the Gemini API to skip signature validation. -/
def DUMMY_THOUGHT_SIGNATURE : String := "skip_thought_signature_validator"

structure ThoughtSignatureService where
  store : List ((Nat × Nat) × String)
  lastTextSignature : Option String
deriving DecidableEq, Repr

/-- A freshly constructed service (`new ThoughtSignatureService()`). -/
def ThoughtSignatureService.empty : ThoughtSignatureService := ⟨[], none⟩

def ThoughtSignatureService.store_signature (svc : ThoughtSignatureService)
    (turnIndex partIndex : Nat) (signature : String) : ThoughtSignatureService :=
  { svc with store := assocSet svc.store (turnIndex, partIndex) signature }

def ThoughtSignatureService.storeTextSignature (svc : ThoughtSignatureService)
    (signature : String) : ThoughtSignatureService :=
  { svc with lastTextSignature := some signature }

def ThoughtSignatureService.getSignature (svc : ThoughtSignatureService)
    (turnIndex partIndex : Nat) : Option String :=
  assocGet svc.store (turnIndex, partIndex)

def ThoughtSignatureService.getLastTextSignature
    (svc : ThoughtSignatureService) : Option String :=
  svc.lastTextSignature

/-- Inner part loop of `extractFromContents` for one model turn. -/
def extractFromParts (svc : ThoughtSignatureService) (t : Nat) :
    Nat → List GeminiPart → ThoughtSignatureService
  | _, [] => svc
  | p, part :: rest =>
    let svc' :=
      if sigTruthy part.signature then
        let stored := svc.store_signature t p ((part.signature).getD "")
        match part with
        | .text _ _ _ => stored.storeTextSignature ((part.signature).getD "")
        | _ => stored
      else svc
    extractFromParts svc' t (p + 1) rest

/-- `ThoughtSignatureService.extractFromContents`: records every signature
found on a model-turn part at its `(turnIndex, partIndex)` key, and
text-part signatures additionally in the last-text slot. -/
def ThoughtSignatureService.extractFromContents (svc : ThoughtSignatureService)
    (contents : List GeminiContent) : ThoughtSignatureService :=
  go svc 0 contents
where
  go (svc : ThoughtSignatureService) : Nat → List GeminiContent → ThoughtSignatureService
  | _, [] => svc
  | t, turn :: rest =>
    let svc' := if turn.role = "model" then extractFromParts svc t 0 turn.parts else svc
    go svc' (t + 1) rest

/-- Inner part loop of `ensureSignatures` over one model turn: `p` is the
part index, `firstFCFound` the running flag.  Only the first functionCall
part whose signature is JS-falsy (`!part.thoughtSignature`: absent or the
empty string) gains one (ledger value at its exact position, else the
dummy sentinel); everything else is returned unchanged. -/
def ensureParts (svc : ThoughtSignatureService) (t : Nat) :
    Nat → Bool → List GeminiPart → List GeminiPart
  | _, _, [] => []
  | p, firstFCFound, part :: rest =>
    match part with
    | .functionCall name args sig =>
      if firstFCFound then
        part :: ensureParts svc t (p + 1) true rest
      else
        let part' :=
          if sigTruthy sig then GeminiPart.functionCall name args sig
          else
            GeminiPart.functionCall name args
              (some ((svc.getSignature t p).getD DUMMY_THOUGHT_SIGNATURE))
        part' :: ensureParts svc t (p + 1) true rest
    | _ => part :: ensureParts svc t (p + 1) firstFCFound rest

/-- Turn loop of `ensureSignatures` (`t` is the turn index). -/
def ensureTurns (svc : ThoughtSignatureService) :
    Nat → List GeminiContent → List GeminiContent
  | _, [] => []
  | t, turn :: rest =>
    (if turn.role = "model" then
      { turn with parts := ensureParts svc t 0 false turn.parts }
     else turn) :: ensureTurns svc (t + 1) rest

/-- `ThoughtSignatureService.ensureSignatures(contents, isGemini3)`. -/
def ensureSignatures (svc : ThoughtSignatureService)
    (contents : List GeminiContent) (isGemini3 : Bool) : List GeminiContent :=
  if isGemini3 then ensureTurns svc 0 contents else contents

/-! ## Gemini responses and the Anthropic content-block model -/

structure GeminiUsageMetadata where
  promptTokenCount : Option Nat
  candidatesTokenCount : Option Nat
  totalTokenCount : Option Nat
  thoughtsTokenCount : Option Nat

structure GeminiCandidate where
  content : Option GeminiContent
  finishReason : Option String

/-- `GeminiGenerateContentResponse`; also the shape of each decoded
streaming chunk. -/
structure GeminiResponse where
  candidates : List GeminiCandidate
  usageMetadata : Option GeminiUsageMetadata

/-- Anthropic content blocks produced by response translation. -/
inductive AnthropicContentBlock where
  | text (text : String)
  | thinking (thinking : String) (signature : String)
  | toolUse (id : String) (name : String) (input : JSON)

def AnthropicContentBlock.isToolUse : AnthropicContentBlock → Bool
  | .toolUse _ _ _ => true
  | _ => false

/-! ## ResponseConverter (`src/converters/response-converter.ts`)

`generateToolUseId()` draws fresh random ids; we model the generator as an
injected supply `idGen : Nat → String` consumed left to right.  State
threading replaces the mutation of the injected `ThoughtSignatureService`.
-/

/-- Part loop of `ResponseConverter.convertParts`; `k` counts generated
tool-use ids. -/
def convertPartsGo (idGen : Nat → String) :
    ThoughtSignatureService → Nat → List GeminiPart →
    ThoughtSignatureService × Nat × List AnthropicContentBlock
  | svc, _k, [] => (svc, _k, [])
  | svc, k, part :: rest =>
    match part with
    | .text t thought sig =>
      if t = "" ∧ sigTruthy sig then
        -- pure signature carrier: store it, emit nothing
        convertPartsGo idGen (svc.storeTextSignature (sig.getD "")) k rest
      else
        let blocks :=
          if thought then [AnthropicContentBlock.thinking t (sig.getD "")]
          else if t ≠ "" then [AnthropicContentBlock.text t]
          else []
        let svc' := if sigTruthy sig then svc.storeTextSignature (sig.getD "") else svc
        let (svc'', k', bs) := convertPartsGo idGen svc' k rest
        (svc'', k', blocks ++ bs)
    | .functionCall name args sig =>
      let blk := AnthropicContentBlock.toolUse (idGen k) name (args.getD (.obj []))
      let svc' := if sigTruthy sig then svc.storeTextSignature (sig.getD "") else svc
      let (svc'', k', bs) := convertPartsGo idGen svc' (k + 1) rest
      (svc'', k', blk :: bs)
    | _ =>
      -- functionResponse / inlineData parts are skipped
      convertPartsGo idGen svc k rest

/-- `ResponseConverter.convertParts` (with the trailing empty-content
fallback). -/
def convertParts (idGen : Nat → String) (svc : ThoughtSignatureService)
    (parts : List GeminiPart) : ThoughtSignatureService × List AnthropicContentBlock :=
  let (svc', _, blocks) := convertPartsGo idGen svc 0 parts
  (svc', if blocks.isEmpty then [AnthropicContentBlock.text ""] else blocks)

/-- `ResponseConverter.convertFinishReason`. -/
def convertFinishReason (reason : Option String)
    (content : List AnthropicContentBlock) : String :=
  if content.any AnthropicContentBlock.isToolUse then "tool_use"
  else
    match reason with
    | some "STOP" => "end_turn"
    | some "MAX_TOKENS" => "max_tokens"
    | _ => "end_turn"

/-- `ResponseConverter.convertUsage`: `(input_tokens, output_tokens)`. -/
def convertUsage (r : GeminiResponse) : Nat × Nat :=
  match r.usageMetadata with
  | some m => (m.promptTokenCount.getD 0,
               m.candidatesTokenCount.getD 0 + m.thoughtsTokenCount.getD 0)
  | none => (0, 0)

/-- The fields of an `AnthropicMessagesResponse` that the translation
determines (`id` is random, `model` is echoed configuration). -/
structure AnthropicMessagesResponse where
  content : List AnthropicContentBlock
  stop_reason : String
  input_tokens : Nat
  output_tokens : Nat

/-- `ResponseConverter.convert` on a complete Gemini response. -/
def convertResponse (idGen : Nat → String) (svc : ThoughtSignatureService)
    (r : GeminiResponse) : ThoughtSignatureService × AnthropicMessagesResponse :=
  match r.candidates.head? with
  | none => (svc, ⟨[AnthropicContentBlock.text ""], "end_turn", 0, 0⟩)
  | some c =>
    let parts := (c.content.map GeminiContent.parts).getD []
    let (svc', content) := convertParts idGen svc parts
    (svc', ⟨content, convertFinishReason c.finishReason content,
            (convertUsage r).1, (convertUsage r).2⟩)

/-! ## StreamConverter (`src/converters/stream-converter.ts`)

The streaming re-framer.  Its mutable fields become a `StreamState`
record; emitting an SSE event becomes appending a `StreamEvent` to the
output list.  The `thoughtSignatures` service is carried inside the state.
The random tool-use id generator is the injected `idGen` supply, indexed
by the `nextToolId` counter.
-/

inductive BlockKind where
  | text
  | thinking
  | toolUse
deriving DecidableEq, Repr

inductive StreamDelta where
  | textDelta (text : String)
  | thinkingDelta (thinking : String)
  | signatureDelta (signature : String)
  | inputJsonDelta (json : JSON)

/-- One outbound SSE event.  Payloads that the state machine determines
are carried; `content_block_start` carries its initial content block. -/
inductive StreamEvent where
  | messageStart (inputTokens : Nat)
  | ping
  | contentBlockStart (index : Nat) (block : AnthropicContentBlock)
  | contentBlockDelta (index : Nat) (delta : StreamDelta)
  | contentBlockStop (index : Nat)
  | messageDelta (stopReason : String) (outputTokens : Nat)
  | messageStop
  | errorEvent (message : String)

/-- The mutable fields of `StreamConverter`. -/
structure StreamState where
  blockIndex : Nat
  messageStarted : Bool
  currentBlockType : Option BlockKind
  currentThinkingSignature : String
  hasEmittedToolUse : Bool
  inputTokens : Nat
  outputTokens : Nat
  nextToolId : Nat
  thoughtSignatures : ThoughtSignatureService

def initStreamState (svc : ThoughtSignatureService) : StreamState :=
  ⟨0, false, none, "", false, 0, 0, 0, svc⟩

/-- `StreamConverter.closeCurrentBlock`: closes the open block, emitting a
trailing `signature_delta` first when closing a thinking block that holds
a signature. -/
def closeCurrentBlock (s : StreamState) : StreamState × List StreamEvent :=
  match s.currentBlockType with
  | none => (s, [])
  | some k =>
    let sigEvs : List StreamEvent :=
      if k = BlockKind.thinking ∧ s.currentThinkingSignature ≠ "" then
        [.contentBlockDelta s.blockIndex (.signatureDelta s.currentThinkingSignature)]
      else []
    ({ s with blockIndex := s.blockIndex + 1,
              currentBlockType := none,
              currentThinkingSignature := "" },
     sigEvs ++ [.contentBlockStop s.blockIndex])

/-- `StreamConverter.handleTextDelta`. -/
def handleTextDelta (text : String) (s : StreamState) :
    StreamState × List StreamEvent :=
  let (s1, evs1) :=
    if s.currentBlockType ≠ some BlockKind.text then
      let (sc, evc) := closeCurrentBlock s
      ({ sc with currentBlockType := some BlockKind.text },
       evc ++ [.contentBlockStart sc.blockIndex (.text "")])
    else (s, [])
  (s1, evs1 ++ [.contentBlockDelta s1.blockIndex (.textDelta text)])

/-- `StreamConverter.handleThinkingDelta`. -/
def handleThinkingDelta (thinking : String) (signature : Option String)
    (s : StreamState) : StreamState × List StreamEvent :=
  let (s1, evs1) :=
    if s.currentBlockType ≠ some BlockKind.thinking then
      let (sc, evc) := closeCurrentBlock s
      ({ sc with currentBlockType := some BlockKind.thinking,
                 currentThinkingSignature := "" },
       evc ++ [.contentBlockStart sc.blockIndex (.thinking "" "")])
    else (s, [])
  let s2 :=
    if sigTruthy signature then
      { s1 with currentThinkingSignature := signature.getD "" }
    else s1
  (s2,
   evs1 ++ (if thinking ≠ "" then
              [.contentBlockDelta s2.blockIndex (.thinkingDelta thinking)]
            else []))

/-- `StreamConverter.handleToolUse`: close any open block, then emit the
atomic start → single `input_json_delta` → stop sequence. -/
def handleToolUse (idGen : Nat → String) (name : String) (args : Option JSON)
    (s : StreamState) : StreamState × List StreamEvent :=
  let (s1, evs1) := closeCurrentBlock s
  let tid := idGen s1.nextToolId
  ({ s1 with hasEmittedToolUse := true,
             nextToolId := s1.nextToolId + 1,
             blockIndex := s1.blockIndex + 1,
             currentBlockType := none },
   evs1 ++ [.contentBlockStart s1.blockIndex (.toolUse tid name (.obj [])),
            .contentBlockDelta s1.blockIndex (.inputJsonDelta (args.getD (.obj []))),
            .contentBlockStop s1.blockIndex])

/-- `StreamConverter.processPart`. -/
def streamProcessPart (idGen : Nat → String) (s : StreamState)
    (part : GeminiPart) : StreamState × List StreamEvent :=
  let s :=
    if sigTruthy part.signature then
      { s with thoughtSignatures :=
          s.thoughtSignatures.storeTextSignature ((part.signature).getD "") }
    else s
  match part with
  | .text t thought sig =>
    if t = "" ∧ sigTruthy sig then (s, [])
    else if thought then handleThinkingDelta t sig s
    else if t ≠ "" then handleTextDelta t s
    else (s, [])
  | .functionCall name args _ => handleToolUse idGen name args s
  | _ => (s, [])

/-- Dispatches every part of a chunk's first candidate in order. -/
def streamProcessParts (idGen : Nat → String) :
    StreamState → List GeminiPart → StreamState × List StreamEvent
  | s, [] => (s, [])
  | s, part :: rest =>
    let (s', evs) := streamProcessPart idGen s part
    let (s'', evs') := streamProcessParts idGen s' rest
    (s'', evs ++ evs')

/-- First-chunk step of `processChunk`: `message_start` (with the chunk's
prompt-token count) followed by the initial `ping`. -/
def chunkStartStep (c : GeminiResponse) (s : StreamState) :
    StreamState × List StreamEvent :=
  if !s.messageStarted then
    ({ s with messageStarted := true },
     [StreamEvent.messageStart ((c.usageMetadata.bind
         GeminiUsageMetadata.promptTokenCount).getD 0),
      StreamEvent.ping])
  else (s, [])

/-- Usage bookkeeping step of `processChunk` (last prompt count wins;
completion + reasoning tokens overwrite the output total). -/
def chunkUsageStep (c : GeminiResponse) (s : StreamState) : StreamState :=
  match c.usageMetadata with
  | some m =>
    { s with inputTokens := m.promptTokenCount.getD s.inputTokens,
             outputTokens := m.candidatesTokenCount.getD 0 +
                             m.thoughtsTokenCount.getD 0 }
  | none => s

/-- The parts of a chunk's first candidate (`chunk.candidates?.[0]?.content?.parts`). -/
def chunkParts (c : GeminiResponse) : Option (List GeminiPart) :=
  match c.candidates.head? with
  | some cand =>
    match cand.content with
    | some ct => some ct.parts
    | none => none
  | none => none

def processChunk (idGen : Nat → String) (s : StreamState) (c : GeminiResponse) :
    StreamState × List StreamEvent :=
  let (s0, evs0) := chunkStartStep c s
  let s1 := chunkUsageStep c s0
  match chunkParts c with
  | some parts =>
    let (s', evs') := streamProcessParts idGen s1 parts
    (s', evs0 ++ evs')
  | none => (s1, evs0)

def processChunks (idGen : Nat → String) :
    StreamState → List GeminiResponse → StreamState × List StreamEvent
  | s, [] => (s, [])
  | s, c :: rest =>
    let (s', evs) := processChunk idGen s c
    let (s'', evs') := processChunks idGen s' rest
    (s'', evs ++ evs')

/-- `StreamConverter.emitMessageEnd`: synthesize an empty message when the
upstream produced nothing, then `message_delta` + `message_stop`. -/
def emitMessageEnd (s : StreamState) : List StreamEvent :=
  (if s.blockIndex = 0 ∧ !s.messageStarted then
     [StreamEvent.messageStart 0, StreamEvent.ping,
      StreamEvent.contentBlockStart 0 (.text ""),
      StreamEvent.contentBlockStop 0]
   else []) ++
  [StreamEvent.messageDelta
     (if s.hasEmittedToolUse then "tool_use" else "end_turn") s.outputTokens,
   StreamEvent.messageStop]

/-- The full event stream produced by `StreamConverter.convertStream` for
a decoded upstream chunk sequence that ends normally. -/
def convertStream (idGen : Nat → String) (svc : ThoughtSignatureService)
    (chunks : List GeminiResponse) : List StreamEvent :=
  let (s, evs) := processChunks idGen (initStreamState svc) chunks
  let (s2, evs2) := closeCurrentBlock s
  evs ++ evs2 ++ emitMessageEnd s2

/-! ### Exceptional termination (`convertStream`'s pull loop)

The `pull` loop reads upstream items inside one `try`; an exception raised
by any read is caught once, reported as a single `error` SSE event, and
the stream is closed — processing never resumes.  We model the upstream
read sequence as a list of items, each either a decoded chunk or a raised
exception carrying its message. -/

inductive StreamReadItem where
  | chunk (c : GeminiResponse)
  | raise (message : String)

def StreamReadItem.isRaise : StreamReadItem → Bool
  | .chunk _ => false
  | .raise _ => true

def convertStreamRunGo (idGen : Nat → String) :
    StreamState → List StreamReadItem → List StreamEvent
  | s, [] =>
    let (s2, evs2) := closeCurrentBlock s
    evs2 ++ emitMessageEnd s2
  | s, .chunk c :: rest =>
    let (s', evs) := processChunk idGen s c
    evs ++ convertStreamRunGo idGen s' rest
  | _, .raise m :: _ => [StreamEvent.errorEvent m]

/-- `convertStream` under a read sequence that may raise. -/
def convertStreamRun (idGen : Nat → String) (svc : ThoughtSignatureService)
    (items : List StreamReadItem) : List StreamEvent :=
  convertStreamRunGo idGen (initStreamState svc) items

/-- The chunks of a read sequence (dropping raise markers). -/
def chunkItems : List StreamReadItem → List GeminiResponse
  | [] => []
  | .chunk c :: rest => c :: chunkItems rest
  | .raise _ :: rest => chunkItems rest

def StreamEvent.isError : StreamEvent → Bool
  | .errorEvent _ => true
  | _ => false

def StreamEvent.isMessageDelta : StreamEvent → Bool
  | .messageDelta _ _ => true
  | _ => false

/-- A `content_block_start` opening a tool_use block. -/
def StreamEvent.isToolUseStart : StreamEvent → Bool
  | .contentBlockStart _ (.toolUse _ _ _) => true
  | _ => false

/-- The stream contains a `message_delta` carrying the given stop reason. -/
def hasMessageDeltaWith (evs : List StreamEvent) (reason : String) : Bool :=
  evs.any fun ev =>
    match ev with
    | .messageDelta r _ => r = reason
    | _ => false

/-! ## Anthropic request model (`src/models/anthropic.ts`) -/

inductive AnthropicImageSource where
  | base64 (mediaType : String) (data : String)
  | url (url : String)

/-- Content pieces allowed inside a `tool_result.content` array. -/
inductive ToolResultPiece where
  | text (text : String)
  | image (source : AnthropicImageSource)

/-- `tool_result.content`: a string or an array of pieces. -/
inductive ToolResultContent where
  | str (s : String)
  | blocks (bs : List ToolResultPiece)

/-- Request-side content blocks of an Anthropic message. -/
inductive AnthropicContentBlockParam where
  | text (text : String)
  | image (source : AnthropicImageSource)
  | toolUse (id : String) (name : String) (input : JSON)
  | toolResult (toolUseId : String) (content : Option ToolResultContent) (isError : Bool)

inductive AnthropicMessageContent where
  | str (s : String)
  | blocks (bs : List AnthropicContentBlockParam)

structure AnthropicMessage where
  role : String
  content : AnthropicMessageContent

/-- The capability fields consumed by the converters (the registry's other
fields configure transport and generation limits, not translation shape). -/
structure ModelCapabilities where
  isGemini3 : Bool
  supportsThinking : Bool
  maxOutputTokens : Nat

def AnthropicContentBlockParam.isToolResult : AnthropicContentBlockParam → Bool
  | .toolResult _ _ _ => true
  | _ => false

def AnthropicContentBlockParam.isTextOrImage : AnthropicContentBlockParam → Bool
  | .text _ => true
  | .image _ => true
  | _ => false

/-! ## RequestConverter — messages (`src/converters/request-converter.ts`) -/

/-- `RequestConverter.buildToolNameMap`: pre-pass over the whole history
collecting `tool_use.id → name` (a JS `Map`, last write wins). -/
def buildToolNameMap (messages : List AnthropicMessage) : List (String × String) :=
  messages.foldl
    (fun m msg =>
      match msg.content with
      | .str _ => m
      | .blocks bs =>
        bs.foldl
          (fun m b =>
            match b with
            | .toolUse id name _ => assocSet m id name
            | _ => m)
          m)
    []

/-- `RequestConverter.resolveToolName`: ledger lookup with the id itself
as fallback. -/
def resolveToolName (toolNameMap : List (String × String)) (toolUseId : String) :
    String :=
  (assocGet toolNameMap toolUseId).getD toolUseId

/-- `RequestConverter.extractToolResultText`. -/
def extractToolResultText : Option ToolResultContent → String
  | none => ""
  | some (.str s) => s
  | some (.blocks bs) =>
    String.intercalate "\n"
      (bs.filterMap fun p =>
        match p with
        | .text t => some t
        | _ => none)

/-- `RequestConverter.convertToolResult`: one user-role turn holding a
single functionResponse part named by the resolved tool name. -/
def convertToolResult (toolNameMap : List (String × String))
    (toolUseId : String) (content : Option ToolResultContent) (isError : Bool) :
    GeminiContent :=
  ⟨"user",
   [GeminiPart.functionResponse (resolveToolName toolNameMap toolUseId)
      (.obj [((if isError then "error" else "result"),
              .str (extractToolResultText content))])]⟩

/-- `RequestConverter.convertImageBlock`. -/
def convertImageBlock : AnthropicImageSource → GeminiPart
  | .base64 mediaType data => .inlineData mediaType data none
  | .url u => .text ("[Image: " ++ u ++ "]") false none

/-- The block loop of `convertSingleMessage`, accumulating text/image
parts, tool-use parts and tool-result turns in encounter order.  The dummy
signature is injected on the first tool-use part of a replayed assistant
message when the target is a Gemini 3 model. -/
def convertBlocksLoop (toolNameMap : List (String × String))
    (roleIsModel isGemini3 : Bool) :
    List AnthropicContentBlockParam →
    List GeminiPart → List GeminiPart → List GeminiContent →
    List GeminiPart × List GeminiPart × List GeminiContent
  | [], ti, tu, tr => (ti, tu, tr)
  | b :: rest, ti, tu, tr =>
    match b with
    | .text t =>
      convertBlocksLoop toolNameMap roleIsModel isGemini3 rest
        (ti ++ [.text t false none]) tu tr
    | .image src =>
      convertBlocksLoop toolNameMap roleIsModel isGemini3 rest
        (ti ++ [convertImageBlock src]) tu tr
    | .toolUse _ name input =>
      let sig :=
        if roleIsModel ∧ isGemini3 ∧ tu.length = 0 then
          some DUMMY_THOUGHT_SIGNATURE
        else none
      convertBlocksLoop toolNameMap roleIsModel isGemini3 rest
        ti (tu ++ [.functionCall name (some input) sig]) tr
    | .toolResult id content isError =>
      convertBlocksLoop toolNameMap roleIsModel isGemini3 rest
        ti tu (tr ++ [convertToolResult toolNameMap id content isError])

/-- `RequestConverter.convertSingleMessage`. -/
def convertSingleMessage (toolNameMap : List (String × String))
    (capabilities : ModelCapabilities) (message : AnthropicMessage) :
    List GeminiContent :=
  let role := if message.role = "assistant" then "model" else "user"
  match message.content with
  | .str s => [⟨role, [.text s false none]⟩]
  | .blocks bs =>
    let (ti, tu, tr) :=
      convertBlocksLoop toolNameMap (role = "model") capabilities.isGemini3
        bs [] [] []
    let results : List GeminiContent :=
      if role = "model" then
        if (ti ++ tu).length > 0 then [⟨"model", ti ++ tu⟩] else []
      else
        (if ti.length > 0 then [⟨"user", ti⟩] else []) ++ tr
    if results.isEmpty then [⟨role, [.text "" false none]⟩] else results

/-- `RequestConverter.convertMessages`: per-message conversion followed by
the signature-injection post-pass for strict-token (Gemini 3) targets. -/
def convertMessages (svc : ThoughtSignatureService)
    (toolNameMap : List (String × String)) (capabilities : ModelCapabilities)
    (messages : List AnthropicMessage) : List GeminiContent :=
  let contents := messages.flatMap (convertSingleMessage toolNameMap capabilities)
  if capabilities.isGemini3 then ensureSignatures svc contents true else contents

/-! ## SchemaSanitizer (`RequestConverter.sanitizeSchema`)

The static recursive sanitizer.  Non-object inputs (including arrays and
`null`) are returned unchanged.  For objects, a filtered copy keeps only
allow-listed keys, recursing into `properties` values and the `items`
value when those are non-null objects in the JS sense (arrays included:
`Object.entries` of an array yields index-keyed entries).  A post-pass on
the *original* node flattens `anyOf`/`oneOf`/`allOf` into an `enum`
best-effort. -/

/-- `RequestConverter.ALLOWED_SCHEMA_KEYS`. -/
def allowedKey (k : String) : Bool :=
  k = "type" || k = "description" || k = "properties" || k = "items" ||
  k = "required" || k = "enum" || k = "format" || k = "nullable"

/-- `schema.anyOf ?? schema.oneOf ?? schema.allOf` (`??` skips both
absent and `null`). -/
def coalesceAnyOf (fields : List (String × JSON)) : Option JSON :=
  match assocGet fields "anyOf" with
  | some .null | none =>
    match assocGet fields "oneOf" with
    | some .null | none => assocGet fields "allOf"
    | some v => some v
  | some v => some v

/-- One alternative of the `anyOf` loop, in the order the code tests it:
a defined `const` contributes `String(const)`; else an array-valued `enum`
contributes its raw members; else `type === "null"` marks the node
nullable; any other object (or array) alternative aborts the flattening;
non-object alternatives are skipped.  Returns
(enum contribution, sets-nullable, keeps-canEnum). -/
def anyOfAlt : JSON → List JSON × Bool × Bool
  | .obj f =>
    match assocGet f "const" with
    | some c => ([.str (jsToString c)], false, true)
    | none =>
      match assocGet f "enum" with
      | some (.arr xs) => (xs, false, true)
      | _ =>
        match assocGet f "type" with
        | some (.str s) =>
          if s = "null" then ([], true, true) else ([], false, false)
        | _ => ([], false, false)
  | .arr _ => ([], false, false)
  | _ => ([], false, true)

/-- The loop over `anyOf` alternatives, threading the sanitized copy
(`nullable` is assigned on it), the collected enum values and the
`canEnum` flag. -/
def anyOfScan : List JSON → List (String × JSON) → List JSON → Bool →
    List (String × JSON) × List JSON × Bool
  | [], acc, vals, can => (acc, vals, can)
  | a :: rest, acc, vals, can =>
    let (contrib, setsNullable, keepsCan) := anyOfAlt a
    anyOfScan rest
      (if setsNullable then assocSet acc "nullable" (.bool true) else acc)
      (vals ++ contrib)
      (can && keepsCan)

/-- The `anyOf`/`oneOf`/`allOf` post-processing step: reads the original
fields, mutates the sanitized copy. -/
def anyOfPost (fields base : List (String × JSON)) : List (String × JSON) :=
  match coalesceAnyOf fields with
  | some (.arr alts) =>
    if alts.length > 0 then
      let (base', vals, can) := anyOfScan alts base [] true
      if can ∧ vals.length > 0 then
        let base'' := assocSet base' "enum" (.arr vals)
        if jsTruthyOpt (assocGet base'' "type") then base''
        else assocSet base'' "type" (.str "string")
      else base'
    else base
  | _ => base

/-- `Object.entries` of an array: index-keyed entries. -/
def indexKeys (n : Nat) : List JSON → List (String × JSON)
  | [] => []
  | x :: rest => (toString n, x) :: indexKeys (n + 1) rest

mutual

/-- `RequestConverter.sanitizeSchema`. -/
def sanitizeSchema : JSON → JSON
  | .obj fields => .obj (anyOfPost fields (filterLoop fields []))
  | j => j

/-- The allow-list filtering loop of `sanitizeSchema`, building the
sanitized copy by JS property assignment. -/
def filterLoop : List (String × JSON) → List (String × JSON) → List (String × JSON)
  | [], acc => acc
  | (k, v) :: rest, acc =>
    if allowedKey k then
      if k = "properties" then
        match v with
        | .obj pf => filterLoop rest (assocSet acc "properties" (.obj (mapFields pf)))
        | .arr xs =>
          filterLoop rest (assocSet acc "properties" (.obj (indexKeys 0 (mapList xs))))
        | _ => filterLoop rest (assocSet acc k v)
      else if k = "items" then
        match v with
        | .obj pf => filterLoop rest (assocSet acc "items" (sanitizeSchema (.obj pf)))
        | .arr xs => filterLoop rest (assocSet acc "items" (sanitizeSchema (.arr xs)))
        | _ => filterLoop rest (assocSet acc k v)
      else filterLoop rest (assocSet acc k v)
    else filterLoop rest acc

/-- Sanitizes each property schema, keeping keys. -/
def mapFields : List (String × JSON) → List (String × JSON)
  | [] => []
  | (k, v) :: rest => (k, sanitizeSchema v) :: mapFields rest

/-- Sanitizes each element of an array-valued `properties`. -/
def mapList : List JSON → List JSON
  | [] => []
  | v :: rest => sanitizeSchema v :: mapList rest

end

/-! ## Theorems

### C1 / C10 — `ensureSignatures` -/

/-- No functionCall part of the list carries a signature. -/
def noFCSigs (parts : List GeminiPart) : Bool :=
  parts.all (fun part =>
    match part with
    | .functionCall _ _ s => s.isNone
    | _ => true)

/-- Every functionCall part of the list lacks a signature (checker for the
"none of the subsequent functionCall parts carry a signature" half). -/
def restFCsNoSig : List GeminiPart → Bool
  | [] => true
  | .functionCall _ _ s :: rest => s.isNone && restFCsNoSig rest
  | _ :: rest => restFCsNoSig rest

/-- Number of functionCall parts in a turn. -/
def fcCount (parts : List GeminiPart) : Nat :=
  (parts.filter GeminiPart.isFunctionCall).length

/-- Scans to the first functionCall part (`p` = index of the scan head):
it must carry a signature equal to the ledger entry at its exact position
or to the dummy sentinel, and every later functionCall part must carry
none. -/
def scanFirstFC (svc : ThoughtSignatureService) (t : Nat) :
    Nat → List GeminiPart → Bool
  | _, [] => true
  | p, .functionCall _ _ sig :: rest =>
    (match sig with
     | some v =>
       (decide (svc.getSignature t p = some v) || decide (v = DUMMY_THOUGHT_SIGNATURE))
     | none => false) && restFCsNoSig rest
  | p, _ :: rest => scanFirstFC svc t (p + 1) rest

/-- Token discipline of one model turn as claimed: when the turn holds two
or more functionCall parts, exactly the first carries a token (ledger or
dummy) and the rest carry none. -/
def turnTokenDiscipline (svc : ThoughtSignatureService) (t : Nat)
    (parts : List GeminiPart) : Bool :=
  if 2 ≤ fcCount parts then scanFirstFC svc t 0 parts else true

def strictTokenClaimGo (svc : ThoughtSignatureService) :
    Nat → List GeminiContent → Bool
  | _, [] => true
  | t, turn :: rest =>
    (if turn.role = "model" then turnTokenDiscipline svc t turn.parts else true) &&
    strictTokenClaimGo svc (t + 1) rest

/-- Claim C1 as stated, over the output of `ensureSignatures(·, true)`. -/
def strictTokenClaim (svc : ThoughtSignatureService)
    (contents : List GeminiContent) : Bool :=
  strictTokenClaimGo svc 0 (ensureSignatures svc contents true)

theorem ensureParts_true_id (svc : ThoughtSignatureService) (t : Nat) :
    ∀ (parts : List GeminiPart) (p : Nat), ensureParts svc t p true parts = parts
  | [], _ => rfl
  | part :: rest, p => by
    cases part <;>
      simp [ensureParts, ensureParts_true_id svc t rest]

theorem restFCsNoSig_of_noFCSigs :
    ∀ (parts : List GeminiPart), noFCSigs parts = true → restFCsNoSig parts = true
  | [], _ => rfl
  | part :: rest, h => by
    simp only [noFCSigs, List.all_cons, Bool.and_eq_true] at h
    have ih := restFCsNoSig_of_noFCSigs rest h.2
    cases part with
    | functionCall n a s =>
      have hs : s.isNone = true := by simpa using h.1
      simp [restFCsNoSig, ih, hs]
    | text a b c => simpa [restFCsNoSig] using ih
    | inlineData a b c => simpa [restFCsNoSig] using ih
    | functionResponse a b => simpa [restFCsNoSig] using ih

theorem scanFirstFC_ensureParts (svc : ThoughtSignatureService) (t : Nat) :
    ∀ (parts : List GeminiPart) (p : Nat), noFCSigs parts = true →
      scanFirstFC svc t p (ensureParts svc t p false parts) = true
  | [], _, _ => rfl
  | part :: rest, p, h => by
    simp only [noFCSigs, List.all_cons, Bool.and_eq_true] at h
    cases part with
    | functionCall name args sig =>
      have hsig : sig = none := by
        cases sig with
        | none => rfl
        | some v => simp at h
      subst hsig
      simp only [ensureParts, if_neg (by simp : ¬ (false = true)),
        ensureParts_true_id svc t rest]
      simp only [scanFirstFC, Bool.and_eq_true]
      constructor
      · cases hst : svc.getSignature t p with
        | none => simp [hst]
        | some s => simp [hst]
      · exact restFCsNoSig_of_noFCSigs rest h.2
    | text a b c =>
      simpa [ensureParts, scanFirstFC] using
        scanFirstFC_ensureParts svc t rest (p + 1) h.2
    | inlineData a b c =>
      simpa [ensureParts, scanFirstFC] using
        scanFirstFC_ensureParts svc t rest (p + 1) h.2
    | functionResponse a b =>
      simpa [ensureParts, scanFirstFC] using
        scanFirstFC_ensureParts svc t rest (p + 1) h.2

theorem strictTokenClaimGo_ensureTurns (svc : ThoughtSignatureService) :
    ∀ (contents : List GeminiContent) (n : Nat),
      (∀ turn ∈ contents, turn.role = "model" → noFCSigs turn.parts = true) →
      strictTokenClaimGo svc n (ensureTurns svc n contents) = true
  | [], _, _ => rfl
  | ⟨role, parts⟩ :: rest, n, h => by
    have hrest : ∀ u ∈ rest, u.role = "model" → noFCSigs u.parts = true :=
      fun u hu => h u (List.mem_cons_of_mem _ hu)
    have ihrest := strictTokenClaimGo_ensureTurns svc rest (n + 1) hrest
    by_cases hrole : role = "model"
    · subst hrole
      have hfc : noFCSigs parts = true :=
        h ⟨"model", parts⟩ (List.mem_cons_self _ _) rfl
      have hscan := scanFirstFC_ensureParts svc n parts 0 hfc
      simp [ensureTurns, strictTokenClaimGo, turnTokenDiscipline, ihrest, hscan]
    · simp only [ensureTurns, strictTokenClaimGo, if_neg hrole, ihrest,
        Bool.and_true]

/-- C1 (counterexample): as stated, the claim fails.  With an empty ledger
and a model turn holding two functionCall parts whose second already
carries the signature `"x"`, `ensureSignatures(·, true)` gives the first
part the dummy sentinel but leaves `"x"` on the second, so a subsequent
functionCall part still carries a thoughtSignature afterwards. -/
theorem strictTokenClaim_counterexample :
    strictTokenClaim ThoughtSignatureService.empty
      [⟨"model", [.functionCall "tool_a" none none,
                  .functionCall "tool_b" none (some "x")]⟩] = false := by
  rfl

/-- C1 (amended): if no functionCall part of any model turn already
carries a thoughtSignature, then after `ensureSignatures(contents, true)`
every model turn with two or more functionCall parts has exactly its first
functionCall part carrying a signature — the ledger token stored for that
exact `(turnIndex, partIndex)` or the dummy sentinel — and none of the
subsequent functionCall parts carry one. -/
theorem ensureSignatures_strict_token_discipline
    (svc : ThoughtSignatureService) (contents : List GeminiContent)
    (h : ∀ turn ∈ contents, turn.role = "model" → noFCSigs turn.parts = true) :
    strictTokenClaim svc contents = true := by
  simp only [strictTokenClaim, ensureSignatures, if_pos rfl]
  exact strictTokenClaimGo_ensureTurns svc contents 0 h

/-- Witness for C1 at a concrete parallel-tool-call history. -/
theorem ensureSignatures_strict_token_discipline_witness :
    strictTokenClaim ThoughtSignatureService.empty
      [⟨"user", [.text "hi" false none]⟩,
       ⟨"model", [.text "calling" false none,
                  .functionCall "tool_a" none none,
                  .functionCall "tool_b" none none]⟩] = true :=
  ensureSignatures_strict_token_discipline _ _ (by decide)

/-- The only modification `ensureSignatures` may make to a part: a
functionCall whose signature is JS-falsy (absent or the empty string)
gains one (ledger entry at its absolute position `pabs`, else the dummy
sentinel); anything else is unchanged. -/
def framePatch (svc : ThoughtSignatureService) (t pabs : Nat) :
    GeminiPart → GeminiPart
  | .functionCall name args sig =>
    if sigTruthy sig then .functionCall name args sig
    else
      .functionCall name args
        (some ((svc.getSignature t pabs).getD DUMMY_THOUGHT_SIGNATURE))
  | part => part

theorem ensureParts_length (svc : ThoughtSignatureService) (t : Nat) :
    ∀ (parts : List GeminiPart) (p : Nat) (first : Bool),
      (ensureParts svc t p first parts).length = parts.length
  | [], _, _ => rfl
  | part :: rest, p, first => by
    cases part <;> cases first <;>
      simp [ensureParts, ensureParts_length svc t rest, ensureParts_true_id]

theorem ensureParts_get?_false (svc : ThoughtSignatureService) (t : Nat) :
    ∀ (parts : List GeminiPart) (q p : Nat),
      (ensureParts svc t p false parts).get? q =
        (parts.get? q).map (fun part =>
          if part.isFunctionCall && !((parts.take q).any GeminiPart.isFunctionCall)
          then framePatch svc t (p + q) part else part)
  | [], q, p => by cases q <;> rfl
  | part :: rest, q, p => by
    cases hp : part with
    | functionCall name args sig =>
      cases q with
      | zero =>
        cases sig <;>
          simp [ensureParts, framePatch, GeminiPart.isFunctionCall]
      | succ q' =>
        have hrest := ensureParts_true_id svc t rest (p + 1)
        cases sig <;>
          · simp only [ensureParts, hrest, List.take_succ_cons,
              GeminiPart.isFunctionCall, List.any_cons, Bool.true_or,
              Bool.not_true, Bool.and_false, List.get?_cons_succ]
            cases hq : rest.get? q' <;> simp_all
    | text a b c =>
      cases q with
      | zero => simp [ensureParts, GeminiPart.isFunctionCall]
      | succ q' =>
        have ih := ensureParts_get?_false svc t rest q' (p + 1)
        simp only [ensureParts, List.get?_cons_succ, List.take_succ_cons,
          List.any_cons, GeminiPart.isFunctionCall, Bool.false_or, ih]
        have : p + 1 + q' = p + (q' + 1) := by omega
        rw [this]
    | inlineData a b c =>
      cases q with
      | zero => simp [ensureParts, GeminiPart.isFunctionCall]
      | succ q' =>
        have ih := ensureParts_get?_false svc t rest q' (p + 1)
        simp only [ensureParts, List.get?_cons_succ, List.take_succ_cons,
          List.any_cons, GeminiPart.isFunctionCall, Bool.false_or, ih]
        have : p + 1 + q' = p + (q' + 1) := by omega
        rw [this]
    | functionResponse a b =>
      cases q with
      | zero => simp [ensureParts, GeminiPart.isFunctionCall]
      | succ q' =>
        have ih := ensureParts_get?_false svc t rest q' (p + 1)
        simp only [ensureParts, List.get?_cons_succ, List.take_succ_cons,
          List.any_cons, GeminiPart.isFunctionCall, Bool.false_or, ih]
        have : p + 1 + q' = p + (q' + 1) := by omega
        rw [this]

theorem ensureTurns_get? (svc : ThoughtSignatureService) :
    ∀ (contents : List GeminiContent) (n t : Nat),
      (ensureTurns svc n contents).get? t =
        (contents.get? t).map (fun turn =>
          if turn.role = "model" then
            { turn with parts := ensureParts svc (n + t) 0 false turn.parts }
          else turn)
  | [], n, t => by cases t <;> rfl
  | turn :: rest, n, t => by
    cases t with
    | zero => simp [ensureTurns]
    | succ t' =>
      have ih := ensureTurns_get? svc rest (n + 1) t'
      simp only [ensureTurns, List.get?_cons_succ, ih]
      have : n + 1 + t' = n + (t' + 1) := by omega
      rw [this]

theorem ensureTurns_length (svc : ThoughtSignatureService) :
    ∀ (contents : List GeminiContent) (n : Nat),
      (ensureTurns svc n contents).length = contents.length
  | [], _ => rfl
  | _ :: rest, n => by
    simp [ensureTurns, ensureTurns_length svc rest (n + 1)]

/-- C10: the frame of `ensureSignatures`.  With the strict flag off the
input is returned unchanged.  With it on, the turn count, every turn's
role and part count are preserved; non-model turns are untouched; and each
part of a model turn is unchanged unless it is the first functionCall part
of its turn, in which case it is at most `framePatch`ed — i.e. it gains a
signature exactly when its own was JS-falsy (absent or empty). -/
theorem ensureSignatures_frame (svc : ThoughtSignatureService)
    (contents : List GeminiContent) :
    ensureSignatures svc contents false = contents
    ∧ (ensureSignatures svc contents true).length = contents.length
    ∧ ∀ t turn, contents.get? t = some turn →
        ∃ turn', (ensureSignatures svc contents true).get? t = some turn'
          ∧ turn'.role = turn.role
          ∧ turn'.parts.length = turn.parts.length
          ∧ (turn.role ≠ "model" → turn' = turn)
          ∧ ∀ p part, turn.parts.get? p = some part →
              turn'.parts.get? p = some (
                if turn.role = "model"
                   ∧ part.isFunctionCall = true
                   ∧ (turn.parts.take p).any GeminiPart.isFunctionCall = false
                then framePatch svc t p part else part) := by
  refine ⟨rfl, ?_, ?_⟩
  · simp [ensureSignatures, ensureTurns_length]
  · intro t turn hget
    have hchar := ensureTurns_get? svc contents 0 t
    simp only [Nat.zero_add, hget, Option.map_some'] at hchar
    by_cases hrole : turn.role = "model"
    · refine ⟨{ turn with parts := ensureParts svc t 0 false turn.parts },
        ?_, rfl, ensureParts_length svc t turn.parts 0 false, ?_, ?_⟩
      · simpa [ensureSignatures, if_pos hrole] using hchar
      · intro hne; exact absurd hrole hne
      · intro p part hp
        have hpt := ensureParts_get?_false svc t turn.parts p 0
        simp only [hp, Option.map_some', Nat.zero_add] at hpt
        simp only [hpt]
        by_cases hfc : part.isFunctionCall = true
        · by_cases hbefore : (turn.parts.take p).any GeminiPart.isFunctionCall = false
          · simp [hfc, hbefore, hrole]
          · simp only [Bool.not_eq_false] at hbefore
            simp [hfc, hbefore, hrole]
        · simp only [Bool.not_eq_true] at hfc
          simp [hfc]
    · refine ⟨turn, ?_, rfl, rfl, fun _ => rfl, ?_⟩
      · simpa [ensureSignatures, if_neg hrole] using hchar
      · intro p part hp
        simpa [hrole] using hp

/-- Witness for C10: frame facts extracted at concrete histories — a
non-model turn is untouched, and a first functionCall carrying the
JS-falsy empty-string signature is overwritten with the dummy sentinel. -/
theorem ensureSignatures_frame_witness :
    ensureSignatures ThoughtSignatureService.empty
        [⟨"user", [.text "q" false none]⟩] false =
      [⟨"user", [.text "q" false none]⟩]
    ∧ (∃ turn', (ensureSignatures ThoughtSignatureService.empty
        [⟨"user", [.text "q" false none]⟩] true).get? 0 = some turn'
        ∧ turn' = ⟨"user", [.text "q" false none]⟩)
    ∧ (∃ turn', (ensureSignatures ThoughtSignatureService.empty
        [⟨"model", [.functionCall "tool_a" none (some "")]⟩] true).get? 0 =
          some turn'
        ∧ turn'.parts.get? 0 = some (.functionCall "tool_a" none
            (some DUMMY_THOUGHT_SIGNATURE))) := by
  have h := ensureSignatures_frame ThoughtSignatureService.empty
    [⟨"user", [.text "q" false none]⟩]
  have hm := ensureSignatures_frame ThoughtSignatureService.empty
    [⟨"model", [.functionCall "tool_a" none (some "")]⟩]
  refine ⟨h.1, ?_, ?_⟩
  · obtain ⟨turn', hget, -, -, huser, -⟩ :=
      h.2.2 0 ⟨"user", [.text "q" false none]⟩ rfl
    exact ⟨turn', hget, huser (by decide)⟩
  · obtain ⟨turn', hget, -, -, -, hparts⟩ :=
      hm.2.2 0 ⟨"model", [.functionCall "tool_a" none (some "")]⟩ rfl
    refine ⟨turn', hget, ?_⟩
    have hp := hparts 0 (.functionCall "tool_a" none (some "")) rfl
    simpa [framePatch, sigTruthy, GeminiPart.isFunctionCall,
      ThoughtSignatureService.getSignature, ThoughtSignatureService.empty,
      assocGet] using hp

/-! ### C2 — stream event grammar

The claimed grammar
`message_start, ping, (content_block_start, content_block_delta+,
content_block_stop)*, message_delta, message_stop` with block indices
increasing by exactly one per closed block, as a deterministic automaton.
`strict` demands at least one delta inside each block (the claim); with
`strict := false` blocks may be empty (`content_block_delta*`). -/

inductive GrammarState where
  | expectMessageStart
  | expectPing
  | between (i : Nat)
  | inBlock (i : Nat) (seenDelta : Bool)
  | expectStop
  | accepted
  | rejected
deriving DecidableEq, Repr

def grammarStep (strict : Bool) : GrammarState → StreamEvent → GrammarState
  | .expectMessageStart, .messageStart _ => .expectPing
  | .expectPing, .ping => .between 0
  | .between i, .contentBlockStart j _ => if j = i then .inBlock i false else .rejected
  | .between _, .messageDelta _ _ => .expectStop
  | .inBlock i _, .contentBlockDelta j _ => if j = i then .inBlock i true else .rejected
  | .inBlock i seen, .contentBlockStop j =>
    if j = i ∧ (seen || !strict) = true then .between (i + 1) else .rejected
  | .expectStop, .messageStop => .accepted
  | _, _ => .rejected

def grammarRun (strict : Bool) (evs : List StreamEvent) : GrammarState :=
  evs.foldl (grammarStep strict) .expectMessageStart

/-- The event list matches the claimed grammar. -/
def grammarAccepts (strict : Bool) (evs : List StreamEvent) : Prop :=
  grammarRun strict evs = .accepted

theorem grammarRun_append (strict : Bool) (evs more : List StreamEvent) :
    grammarRun strict (evs ++ more) =
      more.foldl (grammarStep strict) (grammarRun strict evs) :=
  List.foldl_append _ _ _ _


/-- Automaton component of the stream invariant: before `message_start`
nothing was emitted; afterwards the relaxed automaton sits `between`
blocks when no block is open, or `inBlock`, always at the state's
`blockIndex`. -/
def streamDfaInv (s : StreamState) (evs : List StreamEvent) : Prop :=
  (s.messageStarted = true ∧ s.currentBlockType = none →
    grammarRun false evs = .between s.blockIndex)
  ∧ (s.messageStarted = true ∧ s.currentBlockType ≠ none →
    ∃ b, grammarRun false evs = .inBlock s.blockIndex b)
  ∧ (s.messageStarted = false →
    evs = [] ∧ s.blockIndex = 0 ∧ s.currentBlockType = none)

theorem streamDfaInv_started_none {s : StreamState} {evs : List StreamEvent}
    (hs : s.messageStarted = true) (hc : s.currentBlockType = none)
    (h : grammarRun false evs = .between s.blockIndex) : streamDfaInv s evs :=
  ⟨fun _ => h, fun hcon => absurd hc hcon.2,
   fun hf => absurd (hs.symm.trans hf) (by simp)⟩

theorem streamDfaInv_started_some {s : StreamState} {evs : List StreamEvent}
    (hs : s.messageStarted = true) {k : BlockKind}
    (hc : s.currentBlockType = some k) (b : Bool)
    (h : grammarRun false evs = .inBlock s.blockIndex b) : streamDfaInv s evs :=
  ⟨fun hcon => absurd (hc.symm.trans hcon.2) (by simp), fun _ => ⟨b, h⟩,
   fun hf => absurd (hs.symm.trans hf) (by simp)⟩

/-- The invariant tying the translator state to the events emitted so
far: the tool-use flag mirrors emitted tool_use starts, and processing
emits neither `message_delta` nor `error` events. -/
def StreamInv (s : StreamState) (evs : List StreamEvent) : Prop :=
  s.hasEmittedToolUse = evs.any StreamEvent.isToolUseStart
  ∧ evs.any StreamEvent.isMessageDelta = false
  ∧ evs.any StreamEvent.isError = false
  ∧ streamDfaInv s evs

theorem streamInv_init (svc : ThoughtSignatureService) :
    StreamInv (initStreamState svc) [] := by
  refine ⟨rfl, rfl, rfl, fun hcon => ?_, fun hcon => ?_, fun _ => ⟨rfl, rfl, rfl⟩⟩
  · cases hcon.1
  · cases hcon.1

theorem closeCurrentBlock_inv (s : StreamState) (evs : List StreamEvent)
    (h : StreamInv s evs) (hs : s.messageStarted = true) :
    (closeCurrentBlock s).1.messageStarted = true
    ∧ (closeCurrentBlock s).1.currentBlockType = none
    ∧ (closeCurrentBlock s).1.hasEmittedToolUse = s.hasEmittedToolUse
    ∧ (closeCurrentBlock s).1.outputTokens = s.outputTokens
    ∧ StreamInv (closeCurrentBlock s).1 (evs ++ (closeCurrentBlock s).2) := by
  obtain ⟨hflag, hmd, herr, hdfa⟩ := h
  cases hcur : s.currentBlockType with
  | none =>
    have hrun := hdfa.1 ⟨hs, hcur⟩
    have hcb : closeCurrentBlock s = (s, []) := by
      simp [closeCurrentBlock, hcur]
    rw [hcb]
    refine ⟨hs, hcur, rfl, rfl, ?_, ?_, ?_, ?_⟩ <;>
      simp only [List.append_nil]
    · exact hflag
    · exact hmd
    · exact herr
    · exact streamDfaInv_started_none hs hcur hrun
  | some k =>
    obtain ⟨b, hb⟩ := hdfa.2.1 ⟨hs, by simp [hcur]⟩
    by_cases hsig : (k = BlockKind.thinking ∧ s.currentThinkingSignature ≠ "")
    · have hcb : closeCurrentBlock s =
        ({ s with blockIndex := s.blockIndex + 1, currentBlockType := none,
                  currentThinkingSignature := "" },
         [StreamEvent.contentBlockDelta s.blockIndex
            (.signatureDelta s.currentThinkingSignature),
          StreamEvent.contentBlockStop s.blockIndex]) := by
        simp [closeCurrentBlock, hcur, hsig]
      rw [hcb]
      refine ⟨hs, rfl, rfl, rfl, ?_, ?_, ?_, ?_⟩
      · simp [List.any_append, StreamEvent.isToolUseStart, hflag]
      · simp [List.any_append, StreamEvent.isMessageDelta, hmd]
      · simp [List.any_append, StreamEvent.isError, herr]
      · refine streamDfaInv_started_none hs rfl ?_
        simp [grammarRun_append, hb, grammarStep]
    · have hcb : closeCurrentBlock s =
        ({ s with blockIndex := s.blockIndex + 1, currentBlockType := none,
                  currentThinkingSignature := "" },
         [StreamEvent.contentBlockStop s.blockIndex]) := by
        simp [closeCurrentBlock, hcur, hsig]
      rw [hcb]
      refine ⟨hs, rfl, rfl, rfl, ?_, ?_, ?_, ?_⟩
      · simp [List.any_append, StreamEvent.isToolUseStart, hflag]
      · simp [List.any_append, StreamEvent.isMessageDelta, hmd]
      · simp [List.any_append, StreamEvent.isError, herr]
      · refine streamDfaInv_started_none hs rfl ?_
        simp [grammarRun_append, hb, grammarStep]

theorem handleTextDelta_inv (text : String) (s : StreamState)
    (evs : List StreamEvent) (h : StreamInv s evs) (hs : s.messageStarted = true) :
    (handleTextDelta text s).1.messageStarted = true
    ∧ StreamInv (handleTextDelta text s).1 (evs ++ (handleTextDelta text s).2) := by
  by_cases hcur : s.currentBlockType = some BlockKind.text
  · have heq : handleTextDelta text s =
        (s, [.contentBlockDelta s.blockIndex (.textDelta text)]) := by
      simp [handleTextDelta, hcur]
    obtain ⟨hflag, hmd, herr, hdfa⟩ := h
    obtain ⟨b, hb⟩ := hdfa.2.1 ⟨hs, by simp [hcur]⟩
    rw [heq]
    refine ⟨hs, ?_, ?_, ?_, ?_⟩
    · simp [List.any_append, StreamEvent.isToolUseStart, hflag]
    · simp [List.any_append, StreamEvent.isMessageDelta, hmd]
    · simp [List.any_append, StreamEvent.isError, herr]
    · refine streamDfaInv_started_some hs hcur true ?_
      simp [grammarRun_append, hb, grammarStep]
  · rcases hcc : closeCurrentBlock s with ⟨sc, evc⟩
    have hcl := closeCurrentBlock_inv s evs h hs
    rw [hcc] at hcl
    obtain ⟨hms, hnone, -, -, hflag, hmd, herr, hdfa⟩ := hcl
    have hrun := hdfa.1 ⟨hms, hnone⟩
    have heq : handleTextDelta text s =
        ({ sc with currentBlockType := some BlockKind.text },
         (evc ++ [.contentBlockStart sc.blockIndex (.text "")]) ++
           [.contentBlockDelta sc.blockIndex (.textDelta text)]) := by
      simp [handleTextDelta, hcur, hcc]
    rw [heq]
    refine ⟨hms, ?_, ?_, ?_, ?_⟩
    · simp only [← List.append_assoc, List.any_append] at hflag ⊢
      simp [hflag, StreamEvent.isToolUseStart]
    · simp only [← List.append_assoc, List.any_append] at hmd ⊢
      simp_all [StreamEvent.isMessageDelta]
    · simp only [← List.append_assoc, List.any_append] at herr ⊢
      simp_all [StreamEvent.isError]
    · refine streamDfaInv_started_some (k := BlockKind.text) hms rfl true ?_
      rw [show evs ++ ((evc ++ [StreamEvent.contentBlockStart sc.blockIndex (.text "")]) ++
           [StreamEvent.contentBlockDelta sc.blockIndex (.textDelta text)]) =
         (evs ++ evc) ++ [StreamEvent.contentBlockStart sc.blockIndex (.text ""),
           StreamEvent.contentBlockDelta sc.blockIndex (.textDelta text)] by simp]
      simp only [grammarRun_append] at hrun ⊢
      simp [hrun, grammarStep]

theorem streamDfaInv_congr {s s' : StreamState} {evs : List StreamEvent}
    (h1 : s'.messageStarted = s.messageStarted)
    (h2 : s'.currentBlockType = s.currentBlockType)
    (h3 : s'.blockIndex = s.blockIndex)
    (h : streamDfaInv s evs) : streamDfaInv s' evs := by
  obtain ⟨ha, hb, hc⟩ := h
  refine ⟨?_, ?_, ?_⟩
  · intro ⟨x, y⟩
    rw [h1] at x
    rw [h2] at y
    rw [h3]
    exact ha ⟨x, y⟩
  · intro ⟨x, y⟩
    rw [h1] at x
    rw [h2] at y
    rw [h3]
    exact hb ⟨x, y⟩
  · intro x
    rw [h1] at x
    obtain ⟨e, bi, ct⟩ := hc x
    exact ⟨e, h3.trans bi, h2.trans ct⟩

theorem streamInv_congr {s s' : StreamState} {evs : List StreamEvent}
    (h1 : s'.messageStarted = s.messageStarted)
    (h2 : s'.currentBlockType = s.currentBlockType)
    (h3 : s'.blockIndex = s.blockIndex)
    (h4 : s'.hasEmittedToolUse = s.hasEmittedToolUse)
    (h : StreamInv s evs) : StreamInv s' evs :=
  ⟨h4.trans h.1, h.2.1, h.2.2.1, streamDfaInv_congr h1 h2 h3 h.2.2.2⟩

/-- Emitting one delta at the open block's index preserves the invariant. -/
theorem streamInv_append_delta (s : StreamState) (evs : List StreamEvent)
    (h : StreamInv s evs) (hs : s.messageStarted = true) {k : BlockKind}
    (hc : s.currentBlockType = some k) (d : StreamDelta) :
    StreamInv s (evs ++ [.contentBlockDelta s.blockIndex d]) := by
  obtain ⟨hflag, hmd, herr, hdfa⟩ := h
  obtain ⟨b, hb⟩ := hdfa.2.1 ⟨hs, by simp [hc]⟩
  refine ⟨?_, ?_, ?_, ?_⟩
  · simp [List.any_append, StreamEvent.isToolUseStart, hflag]
  · simp [List.any_append, StreamEvent.isMessageDelta, hmd]
  · simp [List.any_append, StreamEvent.isError, herr]
  · refine streamDfaInv_started_some hs hc true ?_
    simp [grammarRun_append, hb, grammarStep]

theorem handleThinkingDelta_inv (thinking : String) (signature : Option String)
    (s : StreamState) (evs : List StreamEvent)
    (h : StreamInv s evs) (hs : s.messageStarted = true) :
    (handleThinkingDelta thinking signature s).1.messageStarted = true
    ∧ StreamInv (handleThinkingDelta thinking signature s).1
        (evs ++ (handleThinkingDelta thinking signature s).2) := by
  by_cases hcur : s.currentBlockType = some BlockKind.thinking
  · -- already inside a thinking block
    by_cases hst : sigTruthy signature = true
    · have hinv2 : StreamInv
          { s with currentThinkingSignature := signature.getD "" } evs :=
        streamInv_congr rfl rfl rfl rfl h
      by_cases ht : thinking = ""
      · have heq : handleThinkingDelta thinking signature s =
            ({ s with currentThinkingSignature := signature.getD "" }, []) := by
          simp [handleThinkingDelta, hcur, hst, ht]
        rw [heq]
        exact ⟨hs, by simpa using hinv2⟩
      · have heq : handleThinkingDelta thinking signature s =
            ({ s with currentThinkingSignature := signature.getD "" },
             [.contentBlockDelta s.blockIndex (.thinkingDelta thinking)]) := by
          simp [handleThinkingDelta, hcur, hst, ht]
        rw [heq]
        exact ⟨hs, streamInv_append_delta _ evs hinv2 hs (k := BlockKind.thinking)
          hcur _⟩
    · by_cases ht : thinking = ""
      · have heq : handleThinkingDelta thinking signature s = (s, []) := by
          simp [handleThinkingDelta, hcur, hst, ht]
        rw [heq]
        exact ⟨hs, by simpa using h⟩
      · have heq : handleThinkingDelta thinking signature s =
            (s, [.contentBlockDelta s.blockIndex (.thinkingDelta thinking)]) := by
          simp [handleThinkingDelta, hcur, hst, ht]
        rw [heq]
        exact ⟨hs, streamInv_append_delta s evs h hs (k := BlockKind.thinking) hcur _⟩
  · -- close whatever is open and start a thinking block
    rcases hcc : closeCurrentBlock s with ⟨sc, evc⟩
    have hcl := closeCurrentBlock_inv s evs h hs
    rw [hcc] at hcl
    obtain ⟨hms, hnone, -, -, hflag, hmd, herr, hdfa⟩ := hcl
    have hrun := hdfa.1 ⟨hms, hnone⟩
    have hopen : StreamInv
        { sc with currentBlockType := some BlockKind.thinking,
                  currentThinkingSignature := "" }
        ((evs ++ evc) ++ [.contentBlockStart sc.blockIndex (.thinking "" "")]) := by
      refine ⟨?_, ?_, ?_, ?_⟩
      · simp only [List.any_append] at hflag ⊢
        simp [hflag, StreamEvent.isToolUseStart]
      · simp only [List.any_append] at hmd ⊢
        simp_all [StreamEvent.isMessageDelta]
      · simp only [List.any_append] at herr ⊢
        simp_all [StreamEvent.isError]
      · refine streamDfaInv_started_some (k := BlockKind.thinking) hms rfl false ?_
        simp only [grammarRun_append] at hrun ⊢
        simp [hrun, grammarStep]
    by_cases hst : sigTruthy signature = true
    · have hopen2 : StreamInv
          { sc with currentBlockType := some BlockKind.thinking,
                    currentThinkingSignature := signature.getD "" }
          ((evs ++ evc) ++ [.contentBlockStart sc.blockIndex (.thinking "" "")]) :=
        streamInv_congr rfl rfl rfl rfl hopen
      by_cases ht : thinking = ""
      · have heq : handleThinkingDelta thinking signature s =
            ({ sc with currentBlockType := some BlockKind.thinking,
                       currentThinkingSignature := signature.getD "" },
             evc ++ [.contentBlockStart sc.blockIndex (.thinking "" "")]) := by
          simp [handleThinkingDelta, hcur, hcc, hst, ht]
        rw [heq]
        exact ⟨hms, by simpa [List.append_assoc] using hopen2⟩
      · have heq : handleThinkingDelta thinking signature s =
            ({ sc with currentBlockType := some BlockKind.thinking,
                       currentThinkingSignature := signature.getD "" },
             (evc ++ [.contentBlockStart sc.blockIndex (.thinking "" "")]) ++
               [.contentBlockDelta sc.blockIndex (.thinkingDelta thinking)]) := by
          simp [handleThinkingDelta, hcur, hcc, hst, ht]
        rw [heq]
        refine ⟨hms, ?_⟩
        have := streamInv_append_delta _ _ hopen2 hms
          (k := BlockKind.thinking) rfl (.thinkingDelta thinking)
        simpa [List.append_assoc] using this
    · by_cases ht : thinking = ""
      · have heq : handleThinkingDelta thinking signature s =
            ({ sc with currentBlockType := some BlockKind.thinking,
                       currentThinkingSignature := "" },
             evc ++ [.contentBlockStart sc.blockIndex (.thinking "" "")]) := by
          simp [handleThinkingDelta, hcur, hcc, hst, ht]
        rw [heq]
        exact ⟨hms, by simpa [List.append_assoc] using hopen⟩
      · have heq : handleThinkingDelta thinking signature s =
            ({ sc with currentBlockType := some BlockKind.thinking,
                       currentThinkingSignature := "" },
             (evc ++ [.contentBlockStart sc.blockIndex (.thinking "" "")]) ++
               [.contentBlockDelta sc.blockIndex (.thinkingDelta thinking)]) := by
          simp [handleThinkingDelta, hcur, hcc, hst, ht]
        rw [heq]
        refine ⟨hms, ?_⟩
        have := streamInv_append_delta _ _ hopen hms
          (k := BlockKind.thinking) rfl (.thinkingDelta thinking)
        simpa [List.append_assoc] using this

theorem handleToolUse_inv (idGen : Nat → String) (name : String)
    (args : Option JSON) (s : StreamState) (evs : List StreamEvent)
    (h : StreamInv s evs) (hs : s.messageStarted = true) :
    (handleToolUse idGen name args s).1.messageStarted = true
    ∧ StreamInv (handleToolUse idGen name args s).1
        (evs ++ (handleToolUse idGen name args s).2) := by
  rcases hcc : closeCurrentBlock s with ⟨sc, evc⟩
  have hcl := closeCurrentBlock_inv s evs h hs
  rw [hcc] at hcl
  obtain ⟨hms, hnone, -, -, hflag, hmd, herr, hdfa⟩ := hcl
  have hrun := hdfa.1 ⟨hms, hnone⟩
  have heq : handleToolUse idGen name args s =
      ({ sc with hasEmittedToolUse := true,
                 nextToolId := sc.nextToolId + 1,
                 blockIndex := sc.blockIndex + 1,
                 currentBlockType := none },
       evc ++ [.contentBlockStart sc.blockIndex
                 (.toolUse (idGen sc.nextToolId) name (.obj [])),
               .contentBlockDelta sc.blockIndex
                 (.inputJsonDelta (args.getD (.obj []))),
               .contentBlockStop sc.blockIndex]) := by
    simp [handleToolUse, hcc]
  rw [heq]
  refine ⟨hms, ?_, ?_, ?_, ?_⟩
  · simp [List.any_append, StreamEvent.isToolUseStart]
  · simp only [← List.append_assoc, List.any_append] at hmd ⊢
    simp_all [StreamEvent.isMessageDelta]
  · simp only [← List.append_assoc, List.any_append] at herr ⊢
    simp_all [StreamEvent.isError]
  · refine streamDfaInv_started_none hms rfl ?_
    rw [show evs ++ (evc ++ [StreamEvent.contentBlockStart sc.blockIndex
            (.toolUse (idGen sc.nextToolId) name (.obj [])),
          StreamEvent.contentBlockDelta sc.blockIndex
            (.inputJsonDelta (args.getD (.obj []))),
          StreamEvent.contentBlockStop sc.blockIndex]) =
        (evs ++ evc) ++ [StreamEvent.contentBlockStart sc.blockIndex
            (.toolUse (idGen sc.nextToolId) name (.obj [])),
          StreamEvent.contentBlockDelta sc.blockIndex
            (.inputJsonDelta (args.getD (.obj []))),
          StreamEvent.contentBlockStop sc.blockIndex] by simp]
    simp only [grammarRun_append] at hrun ⊢
    simp [hrun, grammarStep]

theorem streamProcessPart_inv (idGen : Nat → String) (s : StreamState)
    (part : GeminiPart) (evs : List StreamEvent)
    (h : StreamInv s evs) (hs : s.messageStarted = true) :
    (streamProcessPart idGen s part).1.messageStarted = true
    ∧ StreamInv (streamProcessPart idGen s part).1
        (evs ++ (streamProcessPart idGen s part).2) := by
  have hsig : ∀ (s' : StreamState), s'.messageStarted = true → StreamInv s' evs →
      (if sigTruthy part.signature then
        { s' with thoughtSignatures :=
            s'.thoughtSignatures.storeTextSignature ((part.signature).getD "") }
       else s').messageStarted = true ∧
      StreamInv
        (if sigTruthy part.signature then
          { s' with thoughtSignatures :=
              s'.thoughtSignatures.storeTextSignature ((part.signature).getD "") }
         else s') evs := by
    intro s' hms hinv
    by_cases hc : sigTruthy part.signature = true <;>
      simp only [hc, if_true, if_false, Bool.false_eq_true, ite_false, ite_true]
    · exact ⟨hms, streamInv_congr rfl rfl rfl rfl hinv⟩
    · exact ⟨hms, hinv⟩
  obtain ⟨hms1, hinv1⟩ := hsig s hs h
  cases part with
  | text t thought sig =>
    by_cases hskip : (t = "" ∧ sigTruthy sig)
    · have heq : streamProcessPart idGen s (.text t thought sig) =
          ((if sigTruthy sig then
             { s with thoughtSignatures :=
                 s.thoughtSignatures.storeTextSignature (sig.getD "") }
            else s), []) := by
        simp only [streamProcessPart, GeminiPart.signature]
        rw [if_pos hskip]
      rw [heq]
      constructor
      · exact hms1
      · simpa using hinv1
    · by_cases hth : thought = true
      · have heq : streamProcessPart idGen s (.text t thought sig) =
            handleThinkingDelta t sig
              (if sigTruthy sig then
                { s with thoughtSignatures :=
                    s.thoughtSignatures.storeTextSignature (sig.getD "") }
               else s) := by
          simp only [streamProcessPart, GeminiPart.signature]
          rw [if_neg hskip, if_pos hth]
        rw [heq]
        exact handleThinkingDelta_inv t sig _ evs hinv1 hms1
      · by_cases ht : t = ""
        · have heq : streamProcessPart idGen s (.text t thought sig) =
              ((if sigTruthy sig then
                 { s with thoughtSignatures :=
                     s.thoughtSignatures.storeTextSignature (sig.getD "") }
                else s), []) := by
            simp only [streamProcessPart, GeminiPart.signature]
            rw [if_neg hskip, if_neg hth, if_neg (by simpa using ht)]
          rw [heq]
          exact ⟨hms1, by simpa using hinv1⟩
        · have heq : streamProcessPart idGen s (.text t thought sig) =
              handleTextDelta t
                (if sigTruthy sig then
                  { s with thoughtSignatures :=
                      s.thoughtSignatures.storeTextSignature (sig.getD "") }
                 else s) := by
            simp only [streamProcessPart, GeminiPart.signature]
            rw [if_neg hskip, if_neg hth, if_pos (by simpa using ht)]
          rw [heq]
          exact handleTextDelta_inv t _ evs hinv1 hms1
  | functionCall name args sig =>
    have heq : streamProcessPart idGen s (.functionCall name args sig) =
        handleToolUse idGen name args
          (if sigTruthy sig then
            { s with thoughtSignatures :=
                s.thoughtSignatures.storeTextSignature (sig.getD "") }
           else s) := by
      simp only [streamProcessPart, GeminiPart.signature]
    rw [heq]
    exact handleToolUse_inv idGen name args _ evs hinv1 hms1
  | inlineData m d sig =>
    have heq : streamProcessPart idGen s (.inlineData m d sig) =
        ((if sigTruthy sig then
           { s with thoughtSignatures :=
               s.thoughtSignatures.storeTextSignature (sig.getD "") }
          else s), []) := by
      simp only [streamProcessPart, GeminiPart.signature]
    rw [heq]
    exact ⟨hms1, by simpa using hinv1⟩
  | functionResponse n r =>
    have heq : streamProcessPart idGen s (.functionResponse n r) = (s, []) := by
      simp [streamProcessPart, GeminiPart.signature, sigTruthy]
    rw [heq]
    exact ⟨hs, by simpa using h⟩

theorem streamProcessParts_inv (idGen : Nat → String) :
    ∀ (parts : List GeminiPart) (s : StreamState) (evs : List StreamEvent),
      StreamInv s evs → s.messageStarted = true →
      (streamProcessParts idGen s parts).1.messageStarted = true
      ∧ StreamInv (streamProcessParts idGen s parts).1
          (evs ++ (streamProcessParts idGen s parts).2)
  | [], s, evs, h, hs => by
    refine ⟨by simpa [streamProcessParts] using hs, ?_⟩
    simpa [streamProcessParts] using h
  | part :: rest, s, evs, h, hs => by
    rcases hp : streamProcessPart idGen s part with ⟨s', evs'⟩
    have h1 := streamProcessPart_inv idGen s part evs h hs
    rw [hp] at h1
    rcases hr : streamProcessParts idGen s' rest with ⟨s'', evs''⟩
    have h2 := streamProcessParts_inv idGen rest s' (evs ++ evs') h1.2 h1.1
    rw [hr] at h2
    have heq : streamProcessParts idGen s (part :: rest) = (s'', evs' ++ evs'') := by
      simp [streamProcessParts, hp, hr]
    rw [heq]
    exact ⟨h2.1, by simpa [List.append_assoc] using h2.2⟩

theorem chunkStartStep_inv (c : GeminiResponse) (s : StreamState)
    (evs : List StreamEvent) (h : StreamInv s evs) :
    (chunkStartStep c s).1.messageStarted = true
    ∧ StreamInv (chunkStartStep c s).1 (evs ++ (chunkStartStep c s).2) := by
  by_cases hst : s.messageStarted = true
  · have heq : chunkStartStep c s = (s, []) := by
      simp [chunkStartStep, hst]
    rw [heq]
    exact ⟨hst, by simpa using h⟩
  · rw [Bool.not_eq_true] at hst
    obtain ⟨hflag, hmd, herr, hdfa⟩ := h
    obtain ⟨hevs, hbi, hct⟩ := hdfa.2.2 hst
    subst hevs
    have heq : chunkStartStep c s =
        ({ s with messageStarted := true },
         [StreamEvent.messageStart ((c.usageMetadata.bind
             GeminiUsageMetadata.promptTokenCount).getD 0),
          StreamEvent.ping]) := by
      simp [chunkStartStep, hst]
    rw [heq]
    refine ⟨rfl, ?_, ?_, ?_, ?_⟩
    · simpa [StreamEvent.isToolUseStart] using hflag
    · simp [StreamEvent.isMessageDelta]
    · simp [StreamEvent.isError]
    · refine streamDfaInv_started_none rfl hct ?_
      simp [grammarRun, grammarStep, hbi]

theorem chunkUsageStep_inv (c : GeminiResponse) (s : StreamState)
    (evs : List StreamEvent) (h : StreamInv s evs) (hs : s.messageStarted = true) :
    (chunkUsageStep c s).messageStarted = true
    ∧ StreamInv (chunkUsageStep c s) evs := by
  cases hum : c.usageMetadata with
  | none =>
    have heq : chunkUsageStep c s = s := by simp [chunkUsageStep, hum]
    rw [heq]
    exact ⟨hs, h⟩
  | some m =>
    have heq : chunkUsageStep c s =
        { s with inputTokens := m.promptTokenCount.getD s.inputTokens,
                 outputTokens := m.candidatesTokenCount.getD 0 +
                                 m.thoughtsTokenCount.getD 0 } := by
      simp [chunkUsageStep, hum]
    rw [heq]
    exact ⟨hs, streamInv_congr rfl rfl rfl rfl h⟩

theorem processChunk_inv (idGen : Nat → String) (s : StreamState)
    (c : GeminiResponse) (evs : List StreamEvent) (h : StreamInv s evs) :
    (processChunk idGen s c).1.messageStarted = true
    ∧ StreamInv (processChunk idGen s c).1 (evs ++ (processChunk idGen s c).2) := by
  rcases h0 : chunkStartStep c s with ⟨s0, evs0⟩
  have hstart := chunkStartStep_inv c s evs h
  rw [h0] at hstart
  obtain ⟨hms0, hinv0⟩ := hstart
  have husage := chunkUsageStep_inv c s0 (evs ++ evs0) hinv0 hms0
  obtain ⟨hms1, hinv1⟩ := husage
  cases hcp : chunkParts c with
  | none =>
    have heq : processChunk idGen s c = (chunkUsageStep c s0, evs0) := by
      simp [processChunk, h0, hcp]
    rw [heq]
    exact ⟨hms1, hinv1⟩
  | some parts =>
    rcases hpp : streamProcessParts idGen (chunkUsageStep c s0) parts with ⟨s', evs'⟩
    have hparts := streamProcessParts_inv idGen parts (chunkUsageStep c s0)
      (evs ++ evs0) hinv1 hms1
    rw [hpp] at hparts
    have heq : processChunk idGen s c = (s', evs0 ++ evs') := by
      simp [processChunk, h0, hcp, hpp]
    rw [heq]
    exact ⟨hparts.1, by simpa [List.append_assoc] using hparts.2⟩

theorem processChunks_inv (idGen : Nat → String) :
    ∀ (chunks : List GeminiResponse) (s : StreamState) (evs : List StreamEvent),
      StreamInv s evs →
      StreamInv (processChunks idGen s chunks).1
        (evs ++ (processChunks idGen s chunks).2)
      ∧ (chunks ≠ [] →
          (processChunks idGen s chunks).1.messageStarted = true)
  | [], s, evs, h => by
    refine ⟨by simpa [processChunks] using h, fun hne => absurd rfl hne⟩
  | c :: rest, s, evs, h => by
    rcases hc : processChunk idGen s c with ⟨s', evs'⟩
    have h1 := processChunk_inv idGen s c evs h
    rw [hc] at h1
    rcases hr : processChunks idGen s' rest with ⟨s'', evs''⟩
    have h2 := processChunks_inv idGen rest s' (evs ++ evs') h1.2
    rw [hr] at h2
    have heq : processChunks idGen s (c :: rest) = (s'', evs' ++ evs'') := by
      simp [processChunks, hc, hr]
    rw [heq]
    refine ⟨by simpa [List.append_assoc] using h2.1, fun _ => ?_⟩
    cases rest with
    | nil =>
      have : s'' = s' := by
        have : processChunks idGen s' [] = (s', []) := by simp [processChunks]
        rw [this] at hr
        exact (Prod.mk.injEq _ _ _ _ ▸ hr).1.symm
      rw [this]
      exact h1.1
    | cons c2 r2 => exact h2.2 (by simp)

theorem emitMessageEnd_started (s : StreamState) (hs : s.messageStarted = true) :
    emitMessageEnd s =
      [StreamEvent.messageDelta
         (if s.hasEmittedToolUse then "tool_use" else "end_turn") s.outputTokens,
       StreamEvent.messageStop] := by
  simp [emitMessageEnd, hs]

/-- C2 (amended): for every decoded upstream chunk sequence the emitted
event stream matches
`message_start, ping, (content_block_start, content_block_delta*,
content_block_stop)*, message_delta, message_stop`, with block indices
increasing by exactly one per closed block — i.e. the claimed grammar with
`content_block_delta+` relaxed to `content_block_delta*`, since a block
may legitimately close without any delta (empty upstream, or a thought
part with empty text). -/
theorem convertStream_grammar (idGen : Nat → String)
    (svc : ThoughtSignatureService) (chunks : List GeminiResponse) :
    grammarAccepts false (convertStream idGen svc chunks) := by
  rcases hpc : processChunks idGen (initStreamState svc) chunks with ⟨s, evs⟩
  have hinv := (processChunks_inv idGen chunks (initStreamState svc) []
    (streamInv_init svc)).1
  rw [hpc] at hinv
  simp only [List.nil_append] at hinv
  by_cases hms : s.messageStarted = true
  · rcases hcc : closeCurrentBlock s with ⟨s2, evs2⟩
    have hcl := closeCurrentBlock_inv s evs hinv hms
    rw [hcc] at hcl
    obtain ⟨hms2, hnone2, -, -, -, -, -, hdfa2⟩ := hcl
    have hrun := hdfa2.1 ⟨hms2, hnone2⟩
    have heq : convertStream idGen svc chunks =
        (evs ++ evs2) ++ emitMessageEnd s2 := by
      simp [convertStream, hpc, hcc]
    rw [heq, emitMessageEnd_started s2 hms2]
    show grammarRun false _ = GrammarState.accepted
    simp only [grammarRun_append] at hrun ⊢
    simp [hrun, grammarStep]
  · rw [Bool.not_eq_true] at hms
    obtain ⟨-, -, -, hdfa⟩ := hinv
    obtain ⟨hevs, hbi, hct⟩ := hdfa.2.2 hms
    subst hevs
    have hcc : closeCurrentBlock s = (s, []) := by
      simp [closeCurrentBlock, hct]
    have hend : emitMessageEnd s =
        [StreamEvent.messageStart 0, StreamEvent.ping,
         StreamEvent.contentBlockStart 0 (.text ""),
         StreamEvent.contentBlockStop 0,
         StreamEvent.messageDelta
           (if s.hasEmittedToolUse then "tool_use" else "end_turn") s.outputTokens,
         StreamEvent.messageStop] := by
      simp [emitMessageEnd, hbi, hms]
    have heq : convertStream idGen svc chunks = emitMessageEnd s := by
      simp [convertStream, hpc, hcc]
    rw [heq, hend]
    show grammarRun false _ = GrammarState.accepted
    cases s.hasEmittedToolUse <;> simp [grammarRun, grammarStep]

/-- C2 (counterexample): the grammar as claimed — with at least one delta
per block (`content_block_delta+`) — is violated on an empty upstream
chunk sequence: the synthesized empty text block is opened and immediately
closed without any delta. -/
theorem streamGrammar_strict_counterexample :
    ¬ grammarAccepts true
        (convertStream (fun _ => "toolu_01ABCDEFGHJKLMNPQRSTVW")
          ThoughtSignatureService.empty []) := by
  unfold grammarAccepts
  decide

theorem hasMessageDeltaWith_of_no_md (reason : String) :
    ∀ (evs : List StreamEvent), evs.any StreamEvent.isMessageDelta = false →
      hasMessageDeltaWith evs reason = false
  | [], _ => rfl
  | e :: rest, h => by
    simp only [List.any_cons, Bool.or_eq_false_iff] at h
    have ih := hasMessageDeltaWith_of_no_md reason rest h.2
    cases e <;> simp_all [hasMessageDeltaWith, StreamEvent.isMessageDelta,
      List.any_cons]

theorem hasMessageDeltaWith_append (reason : String)
    (a b : List StreamEvent) :
    hasMessageDeltaWith (a ++ b) reason =
      (hasMessageDeltaWith a reason || hasMessageDeltaWith b reason) := by
  simp [hasMessageDeltaWith, List.any_append]

/-- The streaming half of the stop-reason claim: the final
`message_delta` of a converted stream carries `"tool_use"` exactly when a
tool_use block was opened during the stream, and `"end_turn"` exactly
otherwise. -/
theorem convertStream_stop_reason (idGen : Nat → String)
    (svc : ThoughtSignatureService) (chunks : List GeminiResponse) :
    (hasMessageDeltaWith (convertStream idGen svc chunks) "tool_use" = true ↔
      (convertStream idGen svc chunks).any StreamEvent.isToolUseStart = true)
    ∧ (hasMessageDeltaWith (convertStream idGen svc chunks) "end_turn" = true ↔
      (convertStream idGen svc chunks).any StreamEvent.isToolUseStart = false) := by
  rcases hpc : processChunks idGen (initStreamState svc) chunks with ⟨s, evs⟩
  have hinv := (processChunks_inv idGen chunks (initStreamState svc) []
    (streamInv_init svc)).1
  rw [hpc] at hinv
  simp only [List.nil_append] at hinv
  by_cases hms : s.messageStarted = true
  · rcases hcc : closeCurrentBlock s with ⟨s2, evs2⟩
    have hcl := closeCurrentBlock_inv s evs hinv hms
    rw [hcc] at hcl
    obtain ⟨hms2, -, -, -, hflag2, hmd2, -, -⟩ := hcl
    have heq : convertStream idGen svc chunks =
        (evs ++ evs2) ++ emitMessageEnd s2 := by
      simp [convertStream, hpc, hcc]
    rw [heq, emitMessageEnd_started s2 hms2]
    have hprefix := hasMessageDeltaWith_of_no_md "tool_use" (evs ++ evs2) hmd2
    have hprefix2 := hasMessageDeltaWith_of_no_md "end_turn" (evs ++ evs2) hmd2
    have hANY : ∀ (r : String) (o : Nat),
        ((evs ++ evs2) ++ [StreamEvent.messageDelta r o,
          StreamEvent.messageStop]).any StreamEvent.isToolUseStart =
        (evs ++ evs2).any StreamEvent.isToolUseStart := by
      intro r o
      rw [List.any_append]
      simp [StreamEvent.isToolUseStart]
    cases hf : s2.hasEmittedToolUse with
    | true =>
      rw [hf] at hflag2
      simp only [eq_self_iff_true, if_true]
      have hTU : hasMessageDeltaWith ((evs ++ evs2) ++
          [StreamEvent.messageDelta "tool_use" s2.outputTokens,
           StreamEvent.messageStop]) "tool_use" = true := by
        rw [hasMessageDeltaWith_append, hprefix]
        simp [hasMessageDeltaWith]
      have hET : hasMessageDeltaWith ((evs ++ evs2) ++
          [StreamEvent.messageDelta "tool_use" s2.outputTokens,
           StreamEvent.messageStop]) "end_turn" = false := by
        rw [hasMessageDeltaWith_append, hprefix2]
        simp [hasMessageDeltaWith]
      rw [hTU, hET, hANY, ← hflag2]
      simp
    | false =>
      rw [hf] at hflag2
      simp only [Bool.false_eq_true, if_false]
      have hTU : hasMessageDeltaWith ((evs ++ evs2) ++
          [StreamEvent.messageDelta "end_turn" s2.outputTokens,
           StreamEvent.messageStop]) "tool_use" = false := by
        rw [hasMessageDeltaWith_append, hprefix]
        simp [hasMessageDeltaWith]
      have hET : hasMessageDeltaWith ((evs ++ evs2) ++
          [StreamEvent.messageDelta "end_turn" s2.outputTokens,
           StreamEvent.messageStop]) "end_turn" = true := by
        rw [hasMessageDeltaWith_append, hprefix2]
        simp [hasMessageDeltaWith]
      rw [hTU, hET, hANY, ← hflag2]
      simp
  · rw [Bool.not_eq_true] at hms
    obtain ⟨hflag, -, -, hdfa⟩ := hinv
    obtain ⟨hevs, hbi, hct⟩ := hdfa.2.2 hms
    subst hevs
    have hcc : closeCurrentBlock s = (s, []) := by
      simp [closeCurrentBlock, hct]
    have hfl : s.hasEmittedToolUse = false := by simpa using hflag
    have heq : convertStream idGen svc chunks = emitMessageEnd s := by
      simp [convertStream, hpc, hcc]
    rw [heq]
    have hend : emitMessageEnd s =
        [StreamEvent.messageStart 0, StreamEvent.ping,
         StreamEvent.contentBlockStart 0 (.text ""),
         StreamEvent.contentBlockStop 0,
         StreamEvent.messageDelta "end_turn" s.outputTokens,
         StreamEvent.messageStop] := by
      simp [emitMessageEnd, hbi, hms, hfl]
    rw [hend]
    constructor <;>
      simp [hasMessageDeltaWith, StreamEvent.isToolUseStart]

/-- C7: stop-reason mapping.  Non-streaming: when the translated content
holds a tool_use block the stop reason is `"tool_use"` regardless of the
upstream finish reason; otherwise `STOP ↦ end_turn`,
`MAX_TOKENS ↦ max_tokens`, and anything else (or absence) `↦ end_turn`.
Streaming: the final `message_delta` carries `"tool_use"` iff a tool_use
block was emitted during the stream, and `"end_turn"` otherwise. -/
theorem stop_reason_tool_use_override :
    (∀ (idGen : Nat → String) (svc : ThoughtSignatureService)
       (r : GeminiResponse) (cand : GeminiCandidate),
      r.candidates.head? = some cand →
        ((convertResponse idGen svc r).2.content.any
            AnthropicContentBlock.isToolUse = true →
          (convertResponse idGen svc r).2.stop_reason = "tool_use")
        ∧ ((convertResponse idGen svc r).2.content.any
            AnthropicContentBlock.isToolUse = false →
          (convertResponse idGen svc r).2.stop_reason =
            match cand.finishReason with
            | some "STOP" => "end_turn"
            | some "MAX_TOKENS" => "max_tokens"
            | _ => "end_turn"))
    ∧ (∀ (idGen : Nat → String) (svc : ThoughtSignatureService)
         (chunks : List GeminiResponse),
        (hasMessageDeltaWith (convertStream idGen svc chunks) "tool_use" = true ↔
          (convertStream idGen svc chunks).any StreamEvent.isToolUseStart = true)
        ∧ (hasMessageDeltaWith (convertStream idGen svc chunks) "end_turn" = true ↔
          (convertStream idGen svc chunks).any StreamEvent.isToolUseStart = false)) := by
  constructor
  · intro idGen svc r cand hcand
    rcases hcp : convertParts idGen svc ((cand.content.map GeminiContent.parts).getD [])
      with ⟨svc', content⟩
    have heq : convertResponse idGen svc r =
        (svc', ⟨content, convertFinishReason cand.finishReason content,
                (convertUsage r).1, (convertUsage r).2⟩) := by
      simp [convertResponse, hcand, hcp]
    rw [heq]
    constructor
    · intro htu
      simp [convertFinishReason, htu]
    · intro htu
      simp only [convertFinishReason, htu, Bool.false_eq_true, if_false]
  · intro idGen svc chunks
    exact convertStream_stop_reason idGen svc chunks

/-- Witness for C7 at concrete inputs: a response whose single part is a
function call maps to `"tool_use"` even under upstream `MAX_TOKENS`, and
an empty stream's `message_delta` carries `"end_turn"`. -/
theorem stop_reason_tool_use_override_witness :
    (convertResponse (fun _ => "toolu_01")
        ThoughtSignatureService.empty
        ⟨[⟨some ⟨"model", [.functionCall "run" (some (.obj [])) none]⟩,
           some "MAX_TOKENS"⟩], none⟩).2.stop_reason = "tool_use"
    ∧ hasMessageDeltaWith
        (convertStream (fun _ => "toolu_01") ThoughtSignatureService.empty [])
        "end_turn" = true := by
  constructor
  · exact (stop_reason_tool_use_override.1 (fun _ => "toolu_01")
      ThoughtSignatureService.empty
      ⟨[⟨some ⟨"model", [.functionCall "run" (some (.obj [])) none]⟩,
         some "MAX_TOKENS"⟩], none⟩
      ⟨some ⟨"model", [.functionCall "run" (some (.obj [])) none]⟩,
       some "MAX_TOKENS"⟩ rfl).1 (by rfl)
  · exact (stop_reason_tool_use_override.2 (fun _ => "toolu_01")
      ThoughtSignatureService.empty []).2.mpr (by rfl)

/-! ### C9 — exceptional termination of the stream -/

theorem convertStreamRunGo_raise (idGen : Nat → String) :
    ∀ (pre : List StreamReadItem) (s : StreamState) (m : String)
      (rest : List StreamReadItem),
      (∀ it ∈ pre, it.isRaise = false) →
      convertStreamRunGo idGen s (pre ++ .raise m :: rest) =
        (processChunks idGen s (chunkItems pre)).2 ++ [StreamEvent.errorEvent m]
  | [], s, m, rest, _ => by
    simp [convertStreamRunGo, chunkItems, processChunks]
  | .chunk c :: pre', s, m, rest, h => by
    rcases hc : processChunk idGen s c with ⟨s', evs⟩
    have ih := convertStreamRunGo_raise idGen pre' s' m rest
      (fun it hit => h it (List.mem_cons_of_mem _ hit))
    rcases hr : processChunks idGen s' (chunkItems pre') with ⟨s'', evs''⟩
    simp only [hr] at ih
    simp [convertStreamRunGo, chunkItems, processChunks, hc, hr, ih]
  | .raise m' :: pre', s, m, rest, h => by
    exact absurd (h _ (List.mem_cons_self _ _)) (by simp [StreamReadItem.isRaise])

/-- C9: if an exception is raised at any point while consuming the
upstream stream, the translator's output is the events already emitted
followed by exactly one terminal `error` event; nothing after the raise is
read (the stream is never retried) and no exception escapes (the run is a
total function into an event list).  The emitted prefix contains no error
event, so the error event is unique and final. -/
theorem convertStreamRun_single_error_event (idGen : Nat → String)
    (svc : ThoughtSignatureService) (pre : List StreamReadItem) (m : String)
    (rest : List StreamReadItem) (h : ∀ it ∈ pre, it.isRaise = false) :
    convertStreamRun idGen svc (pre ++ .raise m :: rest) =
      (processChunks idGen (initStreamState svc) (chunkItems pre)).2 ++
        [StreamEvent.errorEvent m]
    ∧ ((processChunks idGen (initStreamState svc) (chunkItems pre)).2).any
        StreamEvent.isError = false := by
  constructor
  · exact convertStreamRunGo_raise idGen pre (initStreamState svc) m rest h
  · have hinv := (processChunks_inv idGen (chunkItems pre) (initStreamState svc) []
      (streamInv_init svc)).1
    rcases hpc : processChunks idGen (initStreamState svc) (chunkItems pre)
      with ⟨s, evs⟩
    rw [hpc] at hinv
    simpa using hinv.2.2.1

/-- Witness for C9: an immediate upstream exception yields exactly the
single error event, and trailing items are ignored. -/
theorem convertStreamRun_single_error_event_witness :
    convertStreamRun (fun _ => "toolu_01") ThoughtSignatureService.empty
        ([] ++ .raise "boom" :: [.chunk ⟨[], none⟩]) =
      (processChunks (fun _ => "toolu_01")
        (initStreamState ThoughtSignatureService.empty) (chunkItems [])).2 ++
        [StreamEvent.errorEvent "boom"] :=
  (convertStreamRun_single_error_event (fun _ => "toolu_01")
    ThoughtSignatureService.empty [] "boom" [.chunk ⟨[], none⟩]
    (fun it hit => absurd hit (List.not_mem_nil it))).1

/-! ### C3 — signature storage during response translation -/

/-- C3 (code bug, evaluated at the failing input): translating a complete
response whose single functionCall part carries the signature `"sig123"`
writes it only into the ledger's last-free-text slot.  The positional
store stays empty, `getSignature 0 0` cannot recover it, and replaying the
corresponding assistant tool call through `ensureSignatures` attaches the
dummy sentinel instead of `"sig123"`. -/
theorem convertParts_signature_not_positional :
    (convertParts (fun _ => "toolu_01") ThoughtSignatureService.empty
        [.functionCall "get_weather" (some (.obj [])) (some "sig123")]).1.store = []
    ∧ (convertParts (fun _ => "toolu_01") ThoughtSignatureService.empty
        [.functionCall "get_weather" (some (.obj []))
          (some "sig123")]).1.getLastTextSignature = some "sig123"
    ∧ (convertParts (fun _ => "toolu_01") ThoughtSignatureService.empty
        [.functionCall "get_weather" (some (.obj []))
          (some "sig123")]).1.getSignature 0 0 = none
    ∧ ensureSignatures
        (convertParts (fun _ => "toolu_01") ThoughtSignatureService.empty
          [.functionCall "get_weather" (some (.obj [])) (some "sig123")]).1
        [⟨"model", [.functionCall "get_weather" (some (.obj [])) none]⟩] true =
      [⟨"model", [.functionCall "get_weather" (some (.obj []))
          (some DUMMY_THOUGHT_SIGNATURE)]⟩] :=
  ⟨rfl, rfl, rfl, rfl⟩

/-! ### C6 — tool_use_id → name resolution -/

/-- The `(id, name)` pairs declared by tool_use blocks, in history
traversal order (the order `buildToolNameMap` visits them). -/
def toolUsePairs (messages : List AnthropicMessage) : List (String × String) :=
  messages.flatMap fun msg =>
    match msg.content with
    | .str _ => []
    | .blocks bs =>
      bs.filterMap fun b =>
        match b with
        | .toolUse id name _ => some (id, name)
        | _ => none

theorem buildToolNameMap_blocks_foldl (bs : List AnthropicContentBlockParam) :
    ∀ (m : List (String × String)),
      bs.foldl
        (fun m b =>
          match b with
          | AnthropicContentBlockParam.toolUse id name _ => assocSet m id name
          | _ => m) m =
      (bs.filterMap fun b =>
        match b with
        | AnthropicContentBlockParam.toolUse id name _ => some (id, name)
        | _ => none).foldl (fun m p => assocSet m p.1 p.2) m := by
  induction bs with
  | nil => intro m; rfl
  | cons b rest ih =>
    intro m
    cases b <;> simp [List.filterMap_cons, ih]

theorem buildToolNameMap_foldl :
    ∀ (messages : List AnthropicMessage) (m : List (String × String)),
      messages.foldl
        (fun m msg =>
          match msg.content with
          | AnthropicMessageContent.str _ => m
          | AnthropicMessageContent.blocks bs =>
            bs.foldl
              (fun m b =>
                match b with
                | AnthropicContentBlockParam.toolUse id name _ => assocSet m id name
                | _ => m) m) m =
      (toolUsePairs messages).foldl (fun m p => assocSet m p.1 p.2) m
  | [], m => rfl
  | ⟨role, .str s⟩ :: rest, m => by
    simpa [toolUsePairs, List.flatMap_cons] using buildToolNameMap_foldl rest m
  | ⟨role, .blocks bs⟩ :: rest, m => by
    have hb := buildToolNameMap_blocks_foldl bs m
    have ih := buildToolNameMap_foldl rest
      ((bs.filterMap fun b =>
        match b with
        | AnthropicContentBlockParam.toolUse id name _ => some (id, name)
        | _ => none).foldl (fun m p => assocSet m p.1 p.2) m)
    simp only [List.foldl_cons] at *
    rw [hb] at *
    simp only [toolUsePairs, List.flatMap_cons, List.foldl_append] at ih ⊢
    exact ih

theorem assocGet_assocSet {β : Type} (m : List (String × β)) (k id : String)
    (v : β) :
    assocGet (assocSet m k v) id = if k = id then some v else assocGet m id := by
  induction m with
  | nil => simp [assocSet, assocGet]
  | cons p rest ih =>
    by_cases hpk : p.1 = k
    · rcases p with ⟨pk, pv⟩
      simp only at hpk
      subst hpk
      by_cases hkid : pk = id <;> simp [assocSet, assocGet, hkid]
    · rcases p with ⟨pk, pv⟩
      simp only at hpk
      by_cases hpid : pk = id
      · subst hpid
        have hkp : ¬(k = pk) := fun h => hpk h.symm
        simp [assocSet, assocGet, hpk, hkp, ih]
      · simp [assocSet, assocGet, hpk, hpid, ih]

theorem assocGet_foldl_assocSet (id : String) :
    ∀ (pairs : List (String × String)) (m : List (String × String)),
      assocGet (pairs.foldl (fun m p => assocSet m p.1 p.2) m) id =
        pairs.foldl (fun acc p => if p.1 = id then some p.2 else acc)
          (assocGet m id) := by
  intro pairs
  induction pairs with
  | nil => intro m; rfl
  | cons p rest ih =>
    intro m
    simp only [List.foldl_cons, ih, assocGet_assocSet]

theorem lastUpd_mem (id : String) :
    ∀ (pairs : List (String × String)) (acc : Option String) (n : String),
      pairs.foldl (fun acc p => if p.1 = id then some p.2 else acc) acc = some n →
      (id, n) ∈ pairs ∨ acc = some n
  | [], acc, n, h => Or.inr h
  | p :: rest, acc, n, h => by
    simp only [List.foldl_cons] at h
    rcases lastUpd_mem id rest _ n h with hmem | hacc
    · exact Or.inl (List.mem_cons_of_mem _ hmem)
    · by_cases hp : p.1 = id
      · rw [if_pos hp] at hacc
        rcases p with ⟨pk, pv⟩
        simp only at hp
        obtain rfl := hp
        obtain rfl : pv = n := by simpa using hacc
        exact Or.inl (List.mem_cons_self _ _)
      · rw [if_neg hp] at hacc
        exact Or.inr hacc

theorem lastUpd_eq_none (id : String) :
    ∀ (pairs : List (String × String)) (acc : Option String),
      pairs.foldl (fun acc p => if p.1 = id then some p.2 else acc) acc = none →
      acc = none ∧ ∀ n, (id, n) ∉ pairs
  | [], acc, h => ⟨h, fun n hn => absurd hn (List.not_mem_nil _)⟩
  | p :: rest, acc, h => by
    simp only [List.foldl_cons] at h
    obtain ⟨hstep, hrest⟩ := lastUpd_eq_none id rest _ h
    by_cases hp : p.1 = id
    · rw [if_pos hp] at hstep
      cases hstep
    · rw [if_neg hp] at hstep
      refine ⟨hstep, fun n hn => ?_⟩
      rcases List.mem_cons.mp hn with rfl | hmem
      · exact hp rfl
      · exact hrest n hmem

/-- C6: after the pre-pass `buildToolNameMap` over the full history, a
tool_result whose `tool_use_id` matches some tool_use block in the history
is translated to a single user-role turn holding one functionResponse
part whose name is the declared name of such a tool_use block; an
unmatched id resolves to the id string itself, and translation is total
(never fails). -/
theorem toolResult_name_resolution (messages : List AnthropicMessage)
    (id : String) (content : Option ToolResultContent) (isError : Bool) :
    (convertToolResult (buildToolNameMap messages) id content isError).role = "user"
    ∧ (convertToolResult (buildToolNameMap messages) id content isError).parts =
        [GeminiPart.functionResponse
          (resolveToolName (buildToolNameMap messages) id)
          (.obj [((if isError then "error" else "result"),
                  .str (extractToolResultText content))])]
    ∧ ((∃ n, (id, n) ∈ toolUsePairs messages) →
        ∃ n, (id, n) ∈ toolUsePairs messages ∧
          resolveToolName (buildToolNameMap messages) id = n)
    ∧ ((∀ n, (id, n) ∉ toolUsePairs messages) →
        resolveToolName (buildToolNameMap messages) id = id) := by
  have hget : assocGet (buildToolNameMap messages) id =
      (toolUsePairs messages).foldl
        (fun acc p => if p.1 = id then some p.2 else acc) none := by
    rw [show buildToolNameMap messages =
        (toolUsePairs messages).foldl (fun m p => assocSet m p.1 p.2) [] from
      buildToolNameMap_foldl messages []]
    exact assocGet_foldl_assocSet id (toolUsePairs messages) []
  refine ⟨rfl, rfl, ?_, ?_⟩
  · intro ⟨n0, hn0⟩
    cases hres : assocGet (buildToolNameMap messages) id with
    | none =>
      rw [hget] at hres
      exact absurd hn0 ((lastUpd_eq_none id (toolUsePairs messages) none hres).2 n0)
    | some n =>
      rw [hget] at hres
      rcases lastUpd_mem id (toolUsePairs messages) none n hres with hmem | hacc
      · exact ⟨n, hmem, by simp [resolveToolName, hget, hres]⟩
      · cases hacc
  · intro hnone
    cases hres : assocGet (buildToolNameMap messages) id with
    | none => simp [resolveToolName, hres]
    | some n =>
      rw [hget] at hres
      rcases lastUpd_mem id (toolUsePairs messages) none n hres with hmem | hacc
      · exact absurd hmem (hnone n)
      · cases hacc

/-- Witness for C6: a matched id resolves to the declared tool name and
an unmatched id falls back to the id literal. -/
theorem toolResult_name_resolution_witness :
    (∃ n, ("toolu_1", n) ∈ toolUsePairs
        [⟨"assistant", .blocks [.toolUse "toolu_1" "get_weather" (.obj [])]⟩] ∧
      resolveToolName (buildToolNameMap
        [⟨"assistant", .blocks [.toolUse "toolu_1" "get_weather" (.obj [])]⟩])
        "toolu_1" = n)
    ∧ resolveToolName (buildToolNameMap
        [⟨"assistant", .blocks [.toolUse "toolu_1" "get_weather" (.obj [])]⟩])
        "toolu_9" = "toolu_9" := by
  constructor
  · exact (toolResult_name_resolution
      [⟨"assistant", .blocks [.toolUse "toolu_1" "get_weather" (.obj [])]⟩]
      "toolu_1" none false).2.2.1 ⟨"get_weather", by simp [toolUsePairs]⟩
  · exact (toolResult_name_resolution
      [⟨"assistant", .blocks [.toolUse "toolu_1" "get_weather" (.obj [])]⟩]
      "toolu_9" none false).2.2.2 (by
        intro n hn
        simp [toolUsePairs] at hn)

/-! ### C8 — splitting of mixed user turns -/

/-- The Gemini part a text or image block contributes to the text/image
turn (nothing for other block kinds). -/
def tiPartOf : AnthropicContentBlockParam → Option GeminiPart
  | .text t => some (.text t false none)
  | .image src => some (convertImageBlock src)
  | _ => none

/-- The separate Gemini turn a tool_result block expands into. -/
def trTurnOf (toolNameMap : List (String × String)) :
    AnthropicContentBlockParam → Option GeminiContent
  | .toolResult id content isError =>
    some (convertToolResult toolNameMap id content isError)
  | _ => none

theorem convertBlocksLoop_spec (toolNameMap : List (String × String))
    (roleIsModel isGemini3 : Bool) :
    ∀ (bs : List AnthropicContentBlockParam) (ti tu : List GeminiPart)
      (tr : List GeminiContent),
      (convertBlocksLoop toolNameMap roleIsModel isGemini3 bs ti tu tr).1 =
        ti ++ bs.filterMap tiPartOf
      ∧ (convertBlocksLoop toolNameMap roleIsModel isGemini3 bs ti tu tr).2.2 =
        tr ++ bs.filterMap (trTurnOf toolNameMap)
  | [], ti, tu, tr => by simp [convertBlocksLoop]
  | b :: rest, ti, tu, tr => by
    cases b with
    | text t =>
      have ih := convertBlocksLoop_spec toolNameMap roleIsModel isGemini3 rest
        (ti ++ [.text t false none]) tu tr
      simpa [convertBlocksLoop, tiPartOf, trTurnOf, List.filterMap_cons] using ih
    | image src =>
      have ih := convertBlocksLoop_spec toolNameMap roleIsModel isGemini3 rest
        (ti ++ [convertImageBlock src]) tu tr
      simpa [convertBlocksLoop, tiPartOf, trTurnOf, List.filterMap_cons] using ih
    | toolUse id name input =>
      have ih := convertBlocksLoop_spec toolNameMap roleIsModel isGemini3 rest
        ti (tu ++ [.functionCall name (some input)
          (if roleIsModel ∧ isGemini3 ∧ tu.length = 0 then
            some DUMMY_THOUGHT_SIGNATURE else none)]) tr
      simpa [convertBlocksLoop, tiPartOf, trTurnOf, List.filterMap_cons] using ih
    | toolResult id content isError =>
      have ih := convertBlocksLoop_spec toolNameMap roleIsModel isGemini3 rest
        ti tu (tr ++ [convertToolResult toolNameMap id content isError])
      simpa [convertBlocksLoop, tiPartOf, trTurnOf, List.filterMap_cons] using ih

/-- C8: a user-role turn mixing text/image blocks with tool_result blocks
splits into one target turn holding exactly the text/image parts, followed
by one separate user-role target turn per tool_result in encounter order,
each holding a single functionResponse part named by the resolved tool
name. -/
theorem mixed_user_turn_split (toolNameMap : List (String × String))
    (capabilities : ModelCapabilities) (message : AnthropicMessage)
    (bs : List AnthropicContentBlockParam)
    (hrole : message.role = "user")
    (hcontent : message.content = .blocks bs)
    (hmix : ∃ b ∈ bs, b.isTextOrImage = true)
    (_htr : ∃ b ∈ bs, b.isToolResult = true) :
    convertSingleMessage toolNameMap capabilities message =
      GeminiContent.mk "user" (bs.filterMap tiPartOf) ::
        bs.filterMap (trTurnOf toolNameMap)
    ∧ ∀ turn ∈ bs.filterMap (trTurnOf toolNameMap), ∃ id content isError,
        AnthropicContentBlockParam.toolResult id content isError ∈ bs
        ∧ turn = convertToolResult toolNameMap id content isError
        ∧ turn.role = "user"
        ∧ turn.parts = [GeminiPart.functionResponse
            (resolveToolName toolNameMap id)
            (.obj [((if isError then "error" else "result"),
                    .str (extractToolResultText content))])] := by
  obtain ⟨mrole, mcontent⟩ := message
  simp only at hrole hcontent
  subst hrole
  subst hcontent
  constructor
  · -- the split itself
    obtain ⟨bmix, hbmem, hbti⟩ := hmix
    have hti : bs.filterMap tiPartOf ≠ [] := by
      cases bmix with
      | text t =>
        exact List.ne_nil_of_mem (List.mem_filterMap.mpr ⟨_, hbmem, rfl⟩)
      | image src =>
        exact List.ne_nil_of_mem (List.mem_filterMap.mpr ⟨_, hbmem, rfl⟩)
      | toolUse a b c => simp [AnthropicContentBlockParam.isTextOrImage] at hbti
      | toolResult a b c => simp [AnthropicContentBlockParam.isTextOrImage] at hbti
    have hpos : 0 < (bs.filterMap tiPartOf).length :=
      List.length_pos.mpr hti
    rcases hloop : convertBlocksLoop toolNameMap
        (decide ((if ("user" : String) = "assistant" then "model" else "user") = "model"))
        capabilities.isGemini3 bs [] [] [] with ⟨ti, tu, tr⟩
    have hspec := convertBlocksLoop_spec toolNameMap
      (decide ((if ("user" : String) = "assistant" then "model" else "user") = "model"))
      capabilities.isGemini3 bs [] [] []
    rw [hloop] at hspec
    simp only [List.nil_append] at hspec
    obtain ⟨hspec1, hspec2⟩ := hspec
    simp only [convertSingleMessage, hloop, hspec1, hspec2]
    rw [if_pos hpos, List.singleton_append]
    simp [List.isEmpty_cons]
  · intro turn hturn
    obtain ⟨b, hbmem, hbsome⟩ := List.mem_filterMap.mp hturn
    cases b with
    | toolResult id content isError =>
      simp only [trTurnOf, Option.some.injEq] at hbsome
      exact ⟨id, content, isError, hbmem, hbsome.symm,
        by rw [← hbsome]; rfl, by rw [← hbsome]; rfl⟩
    | text t => simp [trTurnOf] at hbsome
    | image src => simp [trTurnOf] at hbsome
    | toolUse a b c => simp [trTurnOf] at hbsome

/-- Witness for C8 at a concrete mixed user turn. -/
theorem mixed_user_turn_split_witness :
    convertSingleMessage [("t1", "calc")] ⟨true, true, 65536⟩
        ⟨"user", .blocks [.text "look",
                          .toolResult "t1" (some (.str "42")) false]⟩ =
      GeminiContent.mk "user"
          ([AnthropicContentBlockParam.text "look",
            .toolResult "t1" (some (.str "42")) false].filterMap tiPartOf) ::
        [AnthropicContentBlockParam.text "look",
         .toolResult "t1" (some (.str "42")) false].filterMap
          (trTurnOf [("t1", "calc")]) :=
  (mixed_user_turn_split [("t1", "calc")] ⟨true, true, 65536⟩ _ _ rfl rfl
    ⟨.text "look", by simp, rfl⟩
    ⟨.toolResult "t1" (some (.str "42")) false, by simp, rfl⟩).1

/-! ### C4 — anyOf/oneOf/allOf flattening -/

/-- `typeof a === "object" && a !== null` (arrays are objects in JS). -/
def isObjectLike : JSON → Bool
  | .obj _ => true
  | .arr _ => true
  | _ => false

/-- The claim's two recognized alternative forms, tested the way the code
tests them: a defined `const`, an array-valued `enum`, or `type : "null"`.
Array alternatives have none of these fields, hence are unrecognized. -/
def recognizedAlt : JSON → Bool
  | .obj f =>
    (assocGet f "const").isSome ||
    (match assocGet f "enum" with | some (.arr _) => true | _ => false) ||
    (match assocGet f "type" with | some (.str s) => s = "null" | _ => false)
  | _ => false

/-- The literal values an alternative contributes to the synthesized enum. -/
def altContribution : JSON → List JSON
  | .obj f =>
    match assocGet f "const" with
    | some c => [.str (jsToString c)]
    | none =>
      match assocGet f "enum" with
      | some (.arr xs) => xs
      | _ => []
  | _ => []

/-- Whether the alternative marks the node nullable: a `type : "null"`
object alternative that contributed no literal (no `const`, no
array-valued `enum`). -/
def altSetsNullable : JSON → Bool
  | .obj f =>
    match assocGet f "const" with
    | some _ => false
    | none =>
      match assocGet f "enum" with
      | some (.arr _) => false
      | _ =>
        match assocGet f "type" with
        | some (.str s) => s = "null"
        | _ => false
  | _ => false

def collectedVals (alts : List JSON) : List JSON :=
  alts.flatMap altContribution

theorem anyOfAlt_eq (a : JSON) :
    anyOfAlt a = (altContribution a, altSetsNullable a,
                  !(isObjectLike a) || recognizedAlt a) := by
  cases a with
  | obj f =>
    cases hc : assocGet f "const" with
    | some c =>
      simp [anyOfAlt, altContribution, altSetsNullable, recognizedAlt,
        isObjectLike, hc]
    | none =>
      cases he : assocGet f "enum" with
      | none =>
        cases ht : assocGet f "type" with
        | none =>
          simp [anyOfAlt, altContribution, altSetsNullable, recognizedAlt,
            isObjectLike, hc, he, ht]
        | some tv =>
          cases tv <;>
            first
              | (rename_i s
                 by_cases hs : s = "null" <;>
                   simp [anyOfAlt, altContribution, altSetsNullable,
                     recognizedAlt, isObjectLike, hc, he, ht, hs])
              | simp [anyOfAlt, altContribution, altSetsNullable, recognizedAlt,
                  isObjectLike, hc, he, ht]
      | some ev =>
        cases ev
        case arr xs =>
          simp [anyOfAlt, altContribution, altSetsNullable, recognizedAlt,
            isObjectLike, hc, he]
        all_goals
          cases ht : assocGet f "type" with
          | none =>
            simp [anyOfAlt, altContribution, altSetsNullable, recognizedAlt,
              isObjectLike, hc, he, ht]
          | some tv =>
            cases tv <;>
              first
                | (rename_i s
                   by_cases hs : s = "null" <;>
                     simp [anyOfAlt, altContribution, altSetsNullable,
                       recognizedAlt, isObjectLike, hc, he, ht, hs])
                | simp [anyOfAlt, altContribution, altSetsNullable,
                    recognizedAlt, isObjectLike, hc, he, ht]
  | arr xs =>
    simp [anyOfAlt, altContribution, altSetsNullable, recognizedAlt, isObjectLike]
  | null =>
    simp [anyOfAlt, altContribution, altSetsNullable, recognizedAlt, isObjectLike]
  | bool b =>
    simp [anyOfAlt, altContribution, altSetsNullable, recognizedAlt, isObjectLike]
  | num n =>
    simp [anyOfAlt, altContribution, altSetsNullable, recognizedAlt, isObjectLike]
  | str s =>
    simp [anyOfAlt, altContribution, altSetsNullable, recognizedAlt, isObjectLike]

theorem assocSet_idem {α β : Type} [DecidableEq α] (k : α) (v : β) :
    ∀ (l : List (α × β)), assocSet (assocSet l k v) k v = assocSet l k v
  | [] => by simp [assocSet]
  | (k', v') :: rest => by
    by_cases h : k' = k
    · simp [assocSet, h]
    · simp [assocSet, h, assocSet_idem k v rest]

theorem anyOfScan_spec :
    ∀ (alts : List JSON) (acc : List (String × JSON)) (vals : List JSON)
      (can : Bool),
      anyOfScan alts acc vals can =
        ((if alts.any altSetsNullable then
            assocSet acc "nullable" (.bool true) else acc),
         vals ++ collectedVals alts,
         can && alts.all (fun a => !(isObjectLike a) || recognizedAlt a))
  | [], acc, vals, can => by
    simp [anyOfScan, collectedVals]
  | a :: rest, acc, vals, can => by
    rw [anyOfScan, anyOfAlt_eq a]
    dsimp only
    rw [anyOfScan_spec rest _ _ _]
    by_cases hn : altSetsNullable a = true
    · by_cases hr : rest.any altSetsNullable = true <;>
        simp [hn, hr, assocSet_idem, collectedVals, List.flatMap_cons,
          List.append_assoc, Bool.and_assoc]
    · simp only [Bool.not_eq_true] at hn
      by_cases hr : rest.any altSetsNullable = true <;>
        simp [hn, hr, collectedVals, List.flatMap_cons,
          List.append_assoc, Bool.and_assoc]

theorem assocGet_eq_none_iff {β : Type} (l : List (String × β)) (k : String) :
    assocGet l k = none ↔ k ∉ l.map Prod.fst := by
  induction l with
  | nil => simp [assocGet]
  | cons hd rest ih =>
    obtain ⟨k', v'⟩ := hd
    by_cases h : k' = k
    · subst h
      simp [assocGet]
    · rw [show assocGet ((k', v') :: rest) k = assocGet rest k by
        simp [assocGet, h], ih]
      simp only [List.map_cons, List.mem_cons, not_or]
      constructor
      · intro hn
        exact ⟨fun hh => h hh.symm, hn⟩
      · intro hn
        exact hn.2

theorem mem_keys_assocSet {β : Type} (k k' : String) (v : β)
    (l : List (String × β)) :
    k' ∈ (assocSet l k v).map Prod.fst ↔ k' = k ∨ k' ∈ l.map Prod.fst := by
  induction l with
  | nil => simp [assocSet]
  | cons hd rest ih =>
    obtain ⟨k0, v0⟩ := hd
    by_cases h : k0 = k
    · subst h
      simp [assocSet]
    · simp [assocSet, h, ih]
      tauto

theorem filterLoop_cons_shape (k0 : String) (v : JSON)
    (rest acc : List (String × JSON)) :
    filterLoop ((k0, v) :: rest) acc = filterLoop rest acc ∨
    ∃ v1, filterLoop ((k0, v) :: rest) acc =
      filterLoop rest (assocSet acc k0 v1) := by
  by_cases hak : allowedKey k0 = true
  · by_cases hp : k0 = "properties"
    · subst hp
      cases v with
      | obj pf =>
        refine Or.inr ⟨.obj (mapFields pf), ?_⟩
        simp [filterLoop, hak]
      | arr xs =>
        refine Or.inr ⟨.obj (indexKeys 0 (mapList xs)), ?_⟩
        simp [filterLoop, hak]
      | null =>
        refine Or.inr ⟨.null, ?_⟩
        simp [filterLoop, hak]
      | bool b =>
        refine Or.inr ⟨.bool b, ?_⟩
        simp [filterLoop, hak]
      | num n =>
        refine Or.inr ⟨.num n, ?_⟩
        simp [filterLoop, hak]
      | str s =>
        refine Or.inr ⟨.str s, ?_⟩
        simp [filterLoop, hak]
    · by_cases hi : k0 = "items"
      · subst hi
        cases v with
        | obj pf =>
          refine Or.inr ⟨sanitizeSchema (.obj pf), ?_⟩
          simp [filterLoop, hak]
        | arr xs =>
          refine Or.inr ⟨sanitizeSchema (.arr xs), ?_⟩
          simp [filterLoop, hak]
        | null =>
          refine Or.inr ⟨.null, ?_⟩
          simp [filterLoop, hak]
        | bool b =>
          refine Or.inr ⟨.bool b, ?_⟩
          simp [filterLoop, hak]
        | num n =>
          refine Or.inr ⟨.num n, ?_⟩
          simp [filterLoop, hak]
        | str s =>
          refine Or.inr ⟨.str s, ?_⟩
          simp [filterLoop, hak]
      · cases v with
        | obj pf =>
          refine Or.inr ⟨.obj pf, ?_⟩
          rw [filterLoop.eq_2]
          simp [hak, hp, hi]
        | arr xs =>
          refine Or.inr ⟨.arr xs, ?_⟩
          rw [filterLoop.eq_3]
          simp [hak, hp, hi]
        | null =>
          refine Or.inr ⟨.null, ?_⟩
          simp [filterLoop.eq_4, hak, hp, hi]
        | bool b =>
          refine Or.inr ⟨.bool b, ?_⟩
          simp [filterLoop.eq_4, hak, hp, hi]
        | num n =>
          refine Or.inr ⟨.num n, ?_⟩
          simp [filterLoop.eq_4, hak, hp, hi]
        | str s =>
          refine Or.inr ⟨.str s, ?_⟩
          simp [filterLoop.eq_4, hak, hp, hi]
  · refine Or.inl ?_
    cases v with
    | obj pf =>
      rw [filterLoop.eq_2]
      simp [hak]
    | arr xs =>
      rw [filterLoop.eq_3]
      simp [hak]
    | null => simp [filterLoop.eq_4, hak]
    | bool b => simp [filterLoop.eq_4, hak]
    | num n => simp [filterLoop.eq_4, hak]
    | str s => simp [filterLoop.eq_4, hak]

theorem filterLoop_keys (l : List (String × JSON)) :
    ∀ (acc : List (String × JSON)) (k : String),
      k ∈ (filterLoop l acc).map Prod.fst →
        k ∈ acc.map Prod.fst ∨ k ∈ l.map Prod.fst := by
  induction l with
  | nil =>
    intro acc k h
    exact Or.inl (by simpa [filterLoop] using h)
  | cons hd rest ih =>
    obtain ⟨k0, v⟩ := hd
    intro acc k h
    rcases filterLoop_cons_shape k0 v rest acc with heq | ⟨v1, heq⟩
    · rw [heq] at h
      rcases ih _ k h with h1 | h1
      · exact Or.inl h1
      · exact Or.inr (by simp [h1])
    · rw [heq] at h
      rcases ih _ k h with h1 | h1
      · rcases (mem_keys_assocSet _ _ _ _).mp h1 with rfl | h2
        · exact Or.inr (by simp)
        · exact Or.inl h2
      · exact Or.inr (by simp [h1])

/-- `schema[k]` read on the sanitizer's output. -/
def getSchemaKey (j : JSON) (k : String) : Option JSON :=
  match j with
  | .obj f => assocGet f k
  | _ => none

theorem anyOfPost_spec (fields base : List (String × JSON)) (alts : List JSON)
    (hco : coalesceAnyOf fields = some (.arr alts)) (hne : alts ≠ []) :
    anyOfPost fields base =
      (if (alts.all fun a => !(isObjectLike a) || recognizedAlt a) ∧
          0 < (collectedVals alts).length then
        (if jsTruthyOpt (assocGet
            (assocSet
              (if alts.any altSetsNullable then
                assocSet base "nullable" (.bool true) else base)
              "enum" (.arr (collectedVals alts))) "type") then
          assocSet
            (if alts.any altSetsNullable then
              assocSet base "nullable" (.bool true) else base)
            "enum" (.arr (collectedVals alts))
        else
          assocSet
            (assocSet
              (if alts.any altSetsNullable then
                assocSet base "nullable" (.bool true) else base)
              "enum" (.arr (collectedVals alts)))
            "type" (.str "string"))
      else
        (if alts.any altSetsNullable then
          assocSet base "nullable" (.bool true) else base)) := by
  unfold anyOfPost
  rw [hco]
  dsimp only
  rw [if_pos (List.length_pos.mpr hne)]
  rw [anyOfScan_spec]
  dsimp only
  simp only [Bool.true_and, List.nil_append]

/-- C4 (amended): for a schema whose original fields carry a non-empty
`anyOf`/`oneOf`/`allOf` array, the sanitizer (a) sets `enum` to the
collected literal values — defaulting `type` to `"string"` when the node
had none — exactly when every *object-like* alternative is of a
recognized form and at least one literal was collected, (b) adds no
`enum` when some object-like alternative is unrecognized, and (c) sets
`nullable` to `true` when some alternative is a `type: "null"` object;
non-object alternatives are skipped rather than aborting the flattening.
In particular `{anyOf: [{type: "string", const: "red"}, {type: "string",
const: "blue"}]}` sanitizes to `type "string"` with
`enum ["red", "blue"]`. -/
theorem sanitizeSchema_anyOf_flatten
    (fields : List (String × JSON)) (alts : List JSON)
    (hco : coalesceAnyOf fields = some (.arr alts)) (hne : alts ≠ []) :
    ((∀ a ∈ alts, isObjectLike a = true → recognizedAlt a = true) →
      collectedVals alts ≠ [] →
      getSchemaKey (sanitizeSchema (.obj fields)) "enum" =
        some (.arr (collectedVals alts)) ∧
      (assocGet fields "type" = none →
        getSchemaKey (sanitizeSchema (.obj fields)) "type" =
          some (.str "string"))) ∧
    ((∃ a ∈ alts, isObjectLike a = true ∧ recognizedAlt a = false) →
      assocGet fields "enum" = none →
      getSchemaKey (sanitizeSchema (.obj fields)) "enum" = none) ∧
    (alts.any altSetsNullable = true →
      getSchemaKey (sanitizeSchema (.obj fields)) "nullable" =
        some (.bool true)) ∧
    sanitizeSchema (.obj [("anyOf", .arr [
        .obj [("type", .str "string"), ("const", .str "red")],
        .obj [("type", .str "string"), ("const", .str "blue")]])]) =
      .obj [("enum", .arr [.str "red", .str "blue"]),
            ("type", .str "string")] := by
  have hsan : sanitizeSchema (.obj fields) =
      .obj (anyOfPost fields (filterLoop fields [])) := sanitizeSchema.eq_1 fields
  have hpost := anyOfPost_spec fields (filterLoop fields []) alts hco hne
  refine ⟨?_, ?_, ?_, rfl⟩
  · intro hall hvals
    have hallb : (alts.all fun a => !(isObjectLike a) || recognizedAlt a) = true := by
      rw [List.all_eq_true]
      intro a ha
      cases hio : isObjectLike a with
      | false => simp [hio]
      | true => simp [hio, hall a ha hio]
    have hlen : 0 < (collectedVals alts).length := List.length_pos.mpr hvals
    rw [hsan, hpost, if_pos ⟨hallb, hlen⟩]
    refine ⟨?_, ?_⟩
    · split <;> split <;> simp [getSchemaKey, assocGet_assocSet]
    · intro hty
      have htb : assocGet (filterLoop fields []) "type" = none := by
        apply (assocGet_eq_none_iff _ _).mpr
        intro hk
        rcases filterLoop_keys fields [] "type" hk with h1 | h1
        · simp at h1
        · exact (assocGet_eq_none_iff fields "type").mp hty h1
      have htb' : assocGet
          (if alts.any altSetsNullable then
            assocSet (filterLoop fields []) "nullable" (.bool true)
          else filterLoop fields []) "type" = none := by
        by_cases hn : alts.any altSetsNullable = true <;>
          simp [hn, assocGet_assocSet, htb]
      have hfalse : jsTruthyOpt (assocGet
          (assocSet
            (if alts.any altSetsNullable then
              assocSet (filterLoop fields []) "nullable" (.bool true)
            else filterLoop fields [])
            "enum" (.arr (collectedVals alts))) "type") = false := by
        rw [assocGet_assocSet, if_neg (by decide : ¬("enum" = "type")), htb']
        rfl
      rw [if_neg (by rw [hfalse]; exact Bool.false_ne_true)]
      simp [getSchemaKey, assocGet_assocSet]
  · rintro ⟨a, ha, hio, hrec⟩ henone
    have hcond : ¬((alts.all fun a => !(isObjectLike a) || recognizedAlt a) = true ∧
        0 < (collectedVals alts).length) := by
      rintro ⟨h1, -⟩
      have h2 := List.all_eq_true.mp h1 a ha
      rw [hio, hrec] at h2
      simp at h2
    rw [hsan, hpost, if_neg hcond]
    have hek : assocGet (filterLoop fields []) "enum" = none := by
      apply (assocGet_eq_none_iff _ _).mpr
      intro hk
      rcases filterLoop_keys fields [] "enum" hk with h1 | h1
      · simp at h1
      · exact (assocGet_eq_none_iff fields "enum").mp henone h1
    by_cases hn : alts.any altSetsNullable = true
    · rw [if_pos hn]
      simp [getSchemaKey, assocGet_assocSet, hek]
    · rw [if_neg hn]
      simp [getSchemaKey, hek]
  · intro hnul
    rw [hsan, hpost]
    by_cases hc2 : (alts.all fun a => !(isObjectLike a) || recognizedAlt a) = true ∧
        0 < (collectedVals alts).length
    · rw [if_pos hc2, if_pos hnul]
      split <;> simp [getSchemaKey, assocGet_assocSet]
    · rw [if_neg hc2, if_pos hnul]
      simp [getSchemaKey, assocGet_assocSet]

theorem sanitizeSchema_anyOf_counterexample :
    isObjectLike (.num 42) = false ∧
    recognizedAlt (.num 42) = false ∧
    coalesceAnyOf [("anyOf", .arr [.obj [("const", .str "red")], .num 42])] =
      some (.arr [.obj [("const", .str "red")], .num 42]) ∧
    getSchemaKey (sanitizeSchema (.obj [("anyOf",
      .arr [.obj [("const", .str "red")], .num 42])])) "enum" =
      some (.arr [.str "red"]) := ⟨rfl, rfl, rfl, rfl⟩

theorem sanitizeSchema_anyOf_flatten_witness :
    getSchemaKey (sanitizeSchema (.obj [("anyOf", .arr [
      .obj [("type", .str "string"), ("const", .str "red")],
      .obj [("type", .str "string"), ("const", .str "blue")]])])) "enum" =
      some (.arr [.str "red", .str "blue"]) ∧
    getSchemaKey (sanitizeSchema (.obj [("anyOf", .arr [
      .obj [("type", .str "string"), ("const", .str "red")],
      .obj [("type", .str "string"), ("const", .str "blue")]])])) "type" =
      some (.str "string") := by
  have h := sanitizeSchema_anyOf_flatten
    [("anyOf", .arr [
      .obj [("type", .str "string"), ("const", .str "red")],
      .obj [("type", .str "string"), ("const", .str "blue")]])]
    [.obj [("type", .str "string"), ("const", .str "red")],
     .obj [("type", .str "string"), ("const", .str "blue")]]
    rfl (List.cons_ne_nil _ _)
  have hA := h.1 (by decide) (List.cons_ne_nil _ _)
  exact ⟨hA.1, hA.2 rfl⟩

/-! ### C5 — idempotence of the schema sanitizer -/

theorem sanitizeSchema_arr (xs : List JSON) :
    sanitizeSchema (.arr xs) = .arr xs := rfl

theorem sanitizeSchema_null : sanitizeSchema .null = .null := rfl

theorem mem_assocSet {β : Type} (e : String × β) (k : String) (v : β) :
    ∀ (l : List (String × β)), e ∈ assocSet l k v → e ∈ l ∨ e = (k, v)
  | [], h => by simpa [assocSet] using h
  | (k0, v0) :: rest, h => by
    by_cases hk : k0 = k
    · subst hk
      simp [assocSet] at h
      rcases h with h | h
      · exact Or.inr h
      · exact Or.inl (List.mem_cons_of_mem _ h)
    · simp [assocSet, hk] at h
      rcases h with h | h
      · exact Or.inl (by simp [h])
      · rcases mem_assocSet e k v rest h with h1 | h1
        · exact Or.inl (List.mem_cons_of_mem _ h1)
        · exact Or.inr h1

theorem assocSet_keys {β : Type} (k : String) (v : β) :
    ∀ (l : List (String × β)),
      (assocSet l k v).map Prod.fst =
        if k ∈ l.map Prod.fst then l.map Prod.fst
        else l.map Prod.fst ++ [k]
  | [] => by simp [assocSet]
  | (k0, v0) :: rest => by
    by_cases hk : k0 = k
    · subst hk
      simp [assocSet]
    · have hne : ¬(k = k0) := fun h => hk h.symm
      simp only [assocSet, if_neg hk, List.map_cons, List.mem_cons]
      rw [assocSet_keys k v rest]
      by_cases hm : k ∈ rest.map Prod.fst
      · simp [hm, hne]
      · simp [hm, hne]

theorem nodup_assocSet {β : Type} (k : String) (v : β)
    (l : List (String × β)) (h : (l.map Prod.fst).Nodup) :
    ((assocSet l k v).map Prod.fst).Nodup := by
  rw [assocSet_keys]
  by_cases hm : k ∈ l.map Prod.fst
  · simpa [hm] using h
  · simp [hm, List.nodup_append, h]

theorem assocSet_of_not_mem {β : Type} (k : String) (v : β) :
    ∀ (l : List (String × β)), k ∉ l.map Prod.fst →
      assocSet l k v = l ++ [(k, v)]
  | [], _ => by simp [assocSet]
  | (k0, v0) :: rest, h => by
    have hk : ¬(k0 = k) := by
      intro hk
      exact h (by simp [hk])
    simp only [assocSet, if_neg hk, List.cons_append, List.cons.injEq, true_and]
    exact assocSet_of_not_mem k v rest (fun hm => h (by simp [hm]))

theorem mapFields_of_fixed :
    ∀ (m : List (String × JSON)),
      (∀ q ∈ m, sanitizeSchema q.2 = q.2) → mapFields m = m
  | [], _ => mapFields.eq_1
  | (k, v) :: rest, h => by
    rw [mapFields.eq_2, h (k, v) (by simp),
      mapFields_of_fixed rest (fun q hq => h q (List.mem_cons_of_mem _ hq))]

theorem mapFields_idem :
    ∀ (m : List (String × JSON)),
      (∀ q ∈ m, sanitizeSchema (sanitizeSchema q.2) = sanitizeSchema q.2) →
      mapFields (mapFields m) = mapFields m
  | [], _ => by rw [mapFields.eq_1, mapFields.eq_1]
  | (k, v) :: rest, h => by
    rw [mapFields.eq_2, mapFields.eq_2, h (k, v) (by simp),
      mapFields_idem rest (fun q hq => h q (List.mem_cons_of_mem _ hq))]

theorem mapList_mem (y : JSON) :
    ∀ (xs : List JSON), y ∈ mapList xs → ∃ x ∈ xs, y = sanitizeSchema x
  | x :: rest, h => by
    rw [mapList.eq_2] at h
    rcases List.mem_cons.mp h with h1 | h1
    · exact ⟨x, by simp, h1⟩
    · rcases mapList_mem y rest h1 with ⟨x', hx', hy⟩
      exact ⟨x', List.mem_cons_of_mem _ hx', hy⟩
  | [], h => by rw [mapList.eq_1] at h; cases h

theorem indexKeys_val_mem (q : String × JSON) :
    ∀ (n : Nat) (ys : List JSON), q ∈ indexKeys n ys → q.2 ∈ ys
  | n, y :: rest, h => by
    rw [indexKeys.eq_2] at h
    rcases List.mem_cons.mp h with h1 | h1
    · rw [h1]
      simp
    · exact List.mem_cons_of_mem _ (indexKeys_val_mem q (n + 1) rest h1)
  | n, [], h => by rw [indexKeys.eq_1] at h; cases h

/-- An already-sanitized entry: its key is on the allow-list, a
`properties` value is an object of sanitize-fixed fields, an `items`
value is a sanitize fixpoint. -/
def EntryFixed (e : String × JSON) : Prop :=
  allowedKey e.1 = true ∧
  (e.1 = "properties" →
    (∀ pf, e.2 = JSON.obj pf → mapFields pf = pf) ∧
    (∀ xs, e.2 ≠ JSON.arr xs)) ∧
  (e.1 = "items" → sanitizeSchema e.2 = e.2)

/-- Sanitizer idempotence at a value and at its immediate children. -/
def ValOk (v : JSON) : Prop :=
  sanitizeSchema (sanitizeSchema v) = sanitizeSchema v ∧
  (∀ pf, v = JSON.obj pf →
    ∀ q ∈ pf, sanitizeSchema (sanitizeSchema q.2) = sanitizeSchema q.2) ∧
  (∀ xs, v = JSON.arr xs →
    ∀ x ∈ xs, sanitizeSchema (sanitizeSchema x) = sanitizeSchema x)

theorem filterLoop_nodup :
    ∀ (l acc : List (String × JSON)), (acc.map Prod.fst).Nodup →
      ((filterLoop l acc).map Prod.fst).Nodup := by
  intro l
  induction l with
  | nil =>
    intro acc h
    simpa [filterLoop.eq_1] using h
  | cons hd rest ih =>
    obtain ⟨k, v⟩ := hd
    intro acc h
    rcases filterLoop_cons_shape k v rest acc with heq | ⟨v1, heq⟩
    · rw [heq]
      exact ih acc h
    · rw [heq]
      exact ih _ (nodup_assocSet _ _ _ h)

theorem filterLoop_of_fixed :
    ∀ (l acc : List (String × JSON)),
      (∀ e ∈ l, EntryFixed e) →
      ((acc.map Prod.fst ++ l.map Prod.fst).Nodup) →
      filterLoop l acc = acc ++ l := by
  intro l
  induction l with
  | nil =>
    intro acc _ _
    simp [filterLoop.eq_1]
  | cons hd rest ih =>
    obtain ⟨k, v⟩ := hd
    intro acc hfix hnodup
    obtain ⟨hak, hprops, hitems⟩ := hfix (k, v) (by simp)
    have hknot : k ∉ acc.map Prod.fst := by
      intro hmem
      rw [List.nodup_append] at hnodup
      exact hnodup.2.2 hmem (by simp)
    have hset : assocSet acc k v = acc ++ [(k, v)] :=
      assocSet_of_not_mem k v acc hknot
    have hrec : filterLoop rest (acc ++ [(k, v)]) = (acc ++ [(k, v)]) ++ rest := by
      apply ih
      · intro e he
        exact hfix e (List.mem_cons_of_mem _ he)
      · simpa [List.append_assoc] using hnodup
    by_cases hp : k = "properties"
    · subst hp
      cases v with
      | obj pf =>
        have hmf : mapFields pf = pf := (hprops rfl).1 pf rfl
        rw [filterLoop.eq_2, if_pos hak, if_pos rfl, hmf, hset, hrec]
        simp [List.append_assoc]
      | arr xs => exact absurd rfl ((hprops rfl).2 xs)
      | null =>
        rw [filterLoop.eq_4 acc "properties" JSON.null rest
            (fun _ h => JSON.noConfusion h) (fun _ h => JSON.noConfusion h),
          if_pos hak, if_pos rfl, hset, hrec]
        simp [List.append_assoc]
      | bool b =>
        rw [filterLoop.eq_4 acc "properties" (JSON.bool b) rest
            (fun _ h => JSON.noConfusion h) (fun _ h => JSON.noConfusion h),
          if_pos hak, if_pos rfl, hset, hrec]
        simp [List.append_assoc]
      | num m =>
        rw [filterLoop.eq_4 acc "properties" (JSON.num m) rest
            (fun _ h => JSON.noConfusion h) (fun _ h => JSON.noConfusion h),
          if_pos hak, if_pos rfl, hset, hrec]
        simp [List.append_assoc]
      | str s =>
        rw [filterLoop.eq_4 acc "properties" (JSON.str s) rest
            (fun _ h => JSON.noConfusion h) (fun _ h => JSON.noConfusion h),
          if_pos hak, if_pos rfl, hset, hrec]
        simp [List.append_assoc]
    · by_cases hi : k = "items"
      · subst hi
        cases v with
        | obj pf =>
          have hs : sanitizeSchema (JSON.obj pf) = JSON.obj pf := hitems rfl
          rw [filterLoop.eq_2, if_pos hak, if_neg (by decide), if_pos rfl,
            hs, hset, hrec]
          simp [List.append_assoc]
        | arr xs =>
          rw [filterLoop.eq_3, if_pos hak, if_neg (by decide), if_pos rfl,
            sanitizeSchema_arr, hset, hrec]
          simp [List.append_assoc]
        | null =>
          rw [filterLoop.eq_4 acc "items" JSON.null rest
              (fun _ h => JSON.noConfusion h) (fun _ h => JSON.noConfusion h),
            if_pos hak, if_neg (by decide), if_pos rfl, hset, hrec]
          simp [List.append_assoc]
        | bool b =>
          rw [filterLoop.eq_4 acc "items" (JSON.bool b) rest
              (fun _ h => JSON.noConfusion h) (fun _ h => JSON.noConfusion h),
            if_pos hak, if_neg (by decide), if_pos rfl, hset, hrec]
          simp [List.append_assoc]
        | num m =>
          rw [filterLoop.eq_4 acc "items" (JSON.num m) rest
              (fun _ h => JSON.noConfusion h) (fun _ h => JSON.noConfusion h),
            if_pos hak, if_neg (by decide), if_pos rfl, hset, hrec]
          simp [List.append_assoc]
        | str s =>
          rw [filterLoop.eq_4 acc "items" (JSON.str s) rest
              (fun _ h => JSON.noConfusion h) (fun _ h => JSON.noConfusion h),
            if_pos hak, if_neg (by decide), if_pos rfl, hset, hrec]
          simp [List.append_assoc]
      · cases v with
        | obj pf =>
          rw [filterLoop.eq_2, if_pos hak, if_neg hp, if_neg hi, hset, hrec]
          simp [List.append_assoc]
        | arr xs =>
          rw [filterLoop.eq_3, if_pos hak, if_neg hp, if_neg hi, hset, hrec]
          simp [List.append_assoc]
        | null =>
          rw [filterLoop.eq_4 acc k JSON.null rest
              (fun _ h => JSON.noConfusion h) (fun _ h => JSON.noConfusion h),
            if_pos hak, if_neg hp, if_neg hi, hset, hrec]
          simp [List.append_assoc]
        | bool b =>
          rw [filterLoop.eq_4 acc k (JSON.bool b) rest
              (fun _ h => JSON.noConfusion h) (fun _ h => JSON.noConfusion h),
            if_pos hak, if_neg hp, if_neg hi, hset, hrec]
          simp [List.append_assoc]
        | num m =>
          rw [filterLoop.eq_4 acc k (JSON.num m) rest
              (fun _ h => JSON.noConfusion h) (fun _ h => JSON.noConfusion h),
            if_pos hak, if_neg hp, if_neg hi, hset, hrec]
          simp [List.append_assoc]
        | str s =>
          rw [filterLoop.eq_4 acc k (JSON.str s) rest
              (fun _ h => JSON.noConfusion h) (fun _ h => JSON.noConfusion h),
            if_pos hak, if_neg hp, if_neg hi, hset, hrec]
          simp [List.append_assoc]

theorem entryFixed_of_post_key (e : String × JSON)
    (h : e.1 = "nullable" ∨ e.1 = "enum" ∨ e.1 = "type") : EntryFixed e := by
  refine ⟨?_, ?_, ?_⟩
  · rcases h with h | h | h <;> rw [h] <;> decide
  · intro hpp
    rcases h with h | h | h <;> (rw [h] at hpp; exact absurd hpp (by decide))
  · intro hii
    rcases h with h | h | h <;> (rw [h] at hii; exact absurd hii (by decide))

theorem filterLoop_entries :
    ∀ (l acc : List (String × JSON)),
      (∀ p ∈ l, ValOk p.2) →
      (∀ e ∈ acc, EntryFixed e) →
      ∀ e ∈ filterLoop l acc, EntryFixed e := by
  intro l
  induction l with
  | nil =>
    intro acc _ hacc e he
    rw [filterLoop.eq_1] at he
    exact hacc e he
  | cons hd rest ih =>
    obtain ⟨k, v⟩ := hd
    intro acc hvals hacc e he
    have hvrest : ∀ p ∈ rest, ValOk p.2 :=
      fun p hp => hvals p (List.mem_cons_of_mem _ hp)
    have hv : ValOk v := hvals (k, v) (by simp)
    have hstep : ∀ (v' : JSON),
        filterLoop ((k, v) :: rest) acc = filterLoop rest (assocSet acc k v') →
        EntryFixed (k, v') → EntryFixed e := by
      intro v' heq hfix'
      rw [heq] at he
      refine ih _ hvrest ?_ e he
      intro e' he'
      rcases mem_assocSet e' k v' acc he' with h1 | h1
      · exact hacc e' h1
      · rw [h1]
        exact hfix'
    by_cases hak : allowedKey k = true
    · by_cases hp : k = "properties"
      · subst hp
        cases v with
        | obj pf =>
          refine hstep (.obj (mapFields pf))
            (by rw [filterLoop.eq_2, if_pos hak, if_pos rfl]) ?_
          refine ⟨hak, fun _ => ⟨?_, ?_⟩, fun hii => by simp at hii⟩
          · intro pf' hpf'
            injection hpf' with h
            rw [← h]
            exact mapFields_idem pf (hv.2.1 pf rfl)
          · intro xs h
            exact JSON.noConfusion h
        | arr xs =>
          refine hstep (.obj (indexKeys 0 (mapList xs)))
            (by rw [filterLoop.eq_3, if_pos hak, if_pos rfl]) ?_
          refine ⟨hak, fun _ => ⟨?_, ?_⟩, fun hii => by simp at hii⟩
          · intro pf' hpf'
            injection hpf' with h
            rw [← h]
            apply mapFields_of_fixed
            intro q hq
            rcases mapList_mem q.2 xs (indexKeys_val_mem q 0 (mapList xs) hq)
              with ⟨x, hx, hqx⟩
            rw [hqx]
            exact hv.2.2 xs rfl x hx
          · intro xs' h
            exact JSON.noConfusion h
        | null =>
          refine hstep JSON.null
            (by rw [filterLoop.eq_4 acc "properties" JSON.null rest
                (fun _ h => JSON.noConfusion h) (fun _ h => JSON.noConfusion h),
              if_pos hak, if_pos rfl]) ?_
          exact ⟨hak, fun _ => ⟨fun _ h => JSON.noConfusion h,
            fun _ h => JSON.noConfusion h⟩, fun hii => by simp at hii⟩
        | bool b =>
          refine hstep (JSON.bool b)
            (by rw [filterLoop.eq_4 acc "properties" (JSON.bool b) rest
                (fun _ h => JSON.noConfusion h) (fun _ h => JSON.noConfusion h),
              if_pos hak, if_pos rfl]) ?_
          exact ⟨hak, fun _ => ⟨fun _ h => JSON.noConfusion h,
            fun _ h => JSON.noConfusion h⟩, fun hii => by simp at hii⟩
        | num m =>
          refine hstep (JSON.num m)
            (by rw [filterLoop.eq_4 acc "properties" (JSON.num m) rest
                (fun _ h => JSON.noConfusion h) (fun _ h => JSON.noConfusion h),
              if_pos hak, if_pos rfl]) ?_
          exact ⟨hak, fun _ => ⟨fun _ h => JSON.noConfusion h,
            fun _ h => JSON.noConfusion h⟩, fun hii => by simp at hii⟩
        | str s =>
          refine hstep (JSON.str s)
            (by rw [filterLoop.eq_4 acc "properties" (JSON.str s) rest
                (fun _ h => JSON.noConfusion h) (fun _ h => JSON.noConfusion h),
              if_pos hak, if_pos rfl]) ?_
          exact ⟨hak, fun _ => ⟨fun _ h => JSON.noConfusion h,
            fun _ h => JSON.noConfusion h⟩, fun hii => by simp at hii⟩
      · by_cases hi : k = "items"
        · subst hi
          cases v with
          | obj pf =>
            refine hstep (sanitizeSchema (.obj pf))
              (by rw [filterLoop.eq_2, if_pos hak, if_neg (by decide),
                if_pos rfl]) ?_
            exact ⟨hak, fun hpp => by simp at hpp, fun _ => hv.1⟩
          | arr xs =>
            refine hstep (sanitizeSchema (.arr xs))
              (by rw [filterLoop.eq_3, if_pos hak, if_neg (by decide),
                if_pos rfl]) ?_
            exact ⟨hak, fun hpp => by simp at hpp, fun _ => hv.1⟩
          | null =>
            refine hstep JSON.null
              (by rw [filterLoop.eq_4 acc "items" JSON.null rest
                  (fun _ h => JSON.noConfusion h) (fun _ h => JSON.noConfusion h),
                if_pos hak, if_neg (by decide), if_pos rfl]) ?_
            exact ⟨hak, fun hpp => by simp at hpp, fun _ => rfl⟩
          | bool b =>
            refine hstep (JSON.bool b)
              (by rw [filterLoop.eq_4 acc "items" (JSON.bool b) rest
                  (fun _ h => JSON.noConfusion h) (fun _ h => JSON.noConfusion h),
                if_pos hak, if_neg (by decide), if_pos rfl]) ?_
            exact ⟨hak, fun hpp => by simp at hpp, fun _ => rfl⟩
          | num m =>
            refine hstep (JSON.num m)
              (by rw [filterLoop.eq_4 acc "items" (JSON.num m) rest
                  (fun _ h => JSON.noConfusion h) (fun _ h => JSON.noConfusion h),
                if_pos hak, if_neg (by decide), if_pos rfl]) ?_
            exact ⟨hak, fun hpp => by simp at hpp, fun _ => rfl⟩
          | str s =>
            refine hstep (JSON.str s)
              (by rw [filterLoop.eq_4 acc "items" (JSON.str s) rest
                  (fun _ h => JSON.noConfusion h) (fun _ h => JSON.noConfusion h),
                if_pos hak, if_neg (by decide), if_pos rfl]) ?_
            exact ⟨hak, fun hpp => by simp at hpp, fun _ => rfl⟩
        · have hfix : EntryFixed (k, v) :=
            ⟨hak, fun hpp => absurd hpp hp, fun hii => absurd hii hi⟩
          cases v with
          | obj pf =>
            exact hstep (.obj pf)
              (by rw [filterLoop.eq_2, if_pos hak, if_neg hp, if_neg hi]) hfix
          | arr xs =>
            exact hstep (.arr xs)
              (by rw [filterLoop.eq_3, if_pos hak, if_neg hp, if_neg hi]) hfix
          | null =>
            exact hstep JSON.null
              (by rw [filterLoop.eq_4 acc k JSON.null rest
                  (fun _ h => JSON.noConfusion h) (fun _ h => JSON.noConfusion h),
                if_pos hak, if_neg hp, if_neg hi]) hfix
          | bool b =>
            exact hstep (JSON.bool b)
              (by rw [filterLoop.eq_4 acc k (JSON.bool b) rest
                  (fun _ h => JSON.noConfusion h) (fun _ h => JSON.noConfusion h),
                if_pos hak, if_neg hp, if_neg hi]) hfix
          | num m =>
            exact hstep (JSON.num m)
              (by rw [filterLoop.eq_4 acc k (JSON.num m) rest
                  (fun _ h => JSON.noConfusion h) (fun _ h => JSON.noConfusion h),
                if_pos hak, if_neg hp, if_neg hi]) hfix
          | str s =>
            exact hstep (JSON.str s)
              (by rw [filterLoop.eq_4 acc k (JSON.str s) rest
                  (fun _ h => JSON.noConfusion h) (fun _ h => JSON.noConfusion h),
                if_pos hak, if_neg hp, if_neg hi]) hfix
    · have heq : filterLoop ((k, v) :: rest) acc = filterLoop rest acc := by
        cases v with
        | obj pf => rw [filterLoop.eq_2, if_neg hak]
        | arr xs => rw [filterLoop.eq_3, if_neg hak]
        | null =>
          rw [filterLoop.eq_4 acc k JSON.null rest
            (fun _ h => JSON.noConfusion h) (fun _ h => JSON.noConfusion h),
            if_neg hak]
        | bool b =>
          rw [filterLoop.eq_4 acc k (JSON.bool b) rest
            (fun _ h => JSON.noConfusion h) (fun _ h => JSON.noConfusion h),
            if_neg hak]
        | num m =>
          rw [filterLoop.eq_4 acc k (JSON.num m) rest
            (fun _ h => JSON.noConfusion h) (fun _ h => JSON.noConfusion h),
            if_neg hak]
        | str s =>
          rw [filterLoop.eq_4 acc k (JSON.str s) rest
            (fun _ h => JSON.noConfusion h) (fun _ h => JSON.noConfusion h),
            if_neg hak]
      rw [heq] at he
      exact ih acc hvrest hacc e he

theorem anyOfPost_shape (fields base : List (String × JSON)) :
    anyOfPost fields base = base ∨
    ∃ b1, (b1 = base ∨ b1 = assocSet base "nullable" (JSON.bool true)) ∧
      (anyOfPost fields base = b1 ∨
       ∃ vals, anyOfPost fields base = assocSet b1 "enum" (JSON.arr vals) ∨
         anyOfPost fields base =
           assocSet (assocSet b1 "enum" (JSON.arr vals)) "type"
             (JSON.str "string")) := by
  unfold anyOfPost
  split
  · rename_i alts heq
    by_cases hlen : alts.length > 0
    · rw [if_pos hlen, anyOfScan_spec]
      dsimp only
      simp only [Bool.true_and, List.nil_append]
      by_cases hn : alts.any altSetsNullable = true
      · rw [if_pos hn]
        refine Or.inr ⟨assocSet base "nullable" (JSON.bool true),
          Or.inr rfl, ?_⟩
        by_cases hcan : (alts.all fun a => !(isObjectLike a) || recognizedAlt a) = true ∧
            0 < (collectedVals alts).length
        · rw [if_pos hcan]
          refine Or.inr ⟨collectedVals alts, ?_⟩
          split
          · exact Or.inl rfl
          · exact Or.inr rfl
        · rw [if_neg hcan]
          exact Or.inl rfl
      · rw [if_neg hn]
        refine Or.inr ⟨base, Or.inl rfl, ?_⟩
        by_cases hcan : (alts.all fun a => !(isObjectLike a) || recognizedAlt a) = true ∧
            0 < (collectedVals alts).length
        · rw [if_pos hcan]
          refine Or.inr ⟨collectedVals alts, ?_⟩
          split
          · exact Or.inl rfl
          · exact Or.inr rfl
        · rw [if_neg hcan]
          exact Or.inl rfl
    · rw [if_neg hlen]
      exact Or.inl rfl
  · exact Or.inl rfl

theorem anyOfPost_mem (fields base : List (String × JSON)) :
    ∀ e ∈ anyOfPost fields base,
      e ∈ base ∨ e.1 = "nullable" ∨ e.1 = "enum" ∨ e.1 = "type" := by
  intro e he
  rcases anyOfPost_shape fields base with h | ⟨b1, hb1, h2⟩
  · rw [h] at he
    exact Or.inl he
  · have hmemb1 : e ∈ b1 → e ∈ base ∨ e.1 = "nullable" := by
      intro hm
      rcases hb1 with rfl | rfl
      · exact Or.inl hm
      · rcases mem_assocSet e _ _ base hm with h1 | h1
        · exact Or.inl h1
        · right
          rw [h1]
    rcases h2 with heq | ⟨vals, heq | heq⟩
    · rw [heq] at he
      rcases hmemb1 he with h1 | h1
      · exact Or.inl h1
      · exact Or.inr (Or.inl h1)
    · rw [heq] at he
      rcases mem_assocSet e _ _ b1 he with h1 | h1
      · rcases hmemb1 h1 with h2 | h2
        · exact Or.inl h2
        · exact Or.inr (Or.inl h2)
      · right; right; left
        rw [h1]
    · rw [heq] at he
      rcases mem_assocSet e _ _ _ he with h1 | h1
      · rcases mem_assocSet e _ _ b1 h1 with h2 | h2
        · rcases hmemb1 h2 with h3 | h3
          · exact Or.inl h3
          · exact Or.inr (Or.inl h3)
        · right; right; left
          rw [h2]
      · right; right; right
        rw [h1]

theorem anyOfPost_nodup (fields base : List (String × JSON))
    (h : (base.map Prod.fst).Nodup) :
    ((anyOfPost fields base).map Prod.fst).Nodup := by
  rcases anyOfPost_shape fields base with h1 | ⟨b1, hb1, h2⟩
  · rw [h1]
    exact h
  · have hb1n : (b1.map Prod.fst).Nodup := by
      rcases hb1 with rfl | rfl
      · exact h
      · exact nodup_assocSet _ _ _ h
    rcases h2 with heq | ⟨vals, heq | heq⟩
    · rw [heq]
      exact hb1n
    · rw [heq]
      exact nodup_assocSet _ _ _ hb1n
    · rw [heq]
      exact nodup_assocSet _ _ _ (nodup_assocSet _ _ _ hb1n)

theorem coalesceAnyOf_eq_none (l : List (String × JSON))
    (h1 : assocGet l "anyOf" = none) (h2 : assocGet l "oneOf" = none)
    (h3 : assocGet l "allOf" = none) : coalesceAnyOf l = none := by
  unfold coalesceAnyOf
  rw [h1, h2, h3]

theorem anyOfPost_none (fields base : List (String × JSON))
    (h : coalesceAnyOf fields = none) : anyOfPost fields base = base := by
  unfold anyOfPost
  rw [h]

theorem sanitizeSchema_idem_aux :
    ∀ (n : Nat) (j : JSON), sizeOf j ≤ n →
      sanitizeSchema (sanitizeSchema j) = sanitizeSchema j := by
  intro n
  induction n using Nat.strong_induction_on with
  | _ n ih =>
    intro j hj
    cases j with
    | null => rfl
    | bool b => rfl
    | num m => rfl
    | str s => rfl
    | arr xs => rfl
    | obj fields =>
      have ihj : ∀ (m : JSON), sizeOf m < sizeOf (JSON.obj fields) →
          sanitizeSchema (sanitizeSchema m) = sanitizeSchema m := by
        intro m hm
        exact ih (sizeOf m) (by omega) m le_rfl
      have hvals : ∀ p ∈ fields, ValOk p.2 := by
        intro p hp
        obtain ⟨k, v⟩ := p
        have h1 := List.sizeOf_lt_of_mem hp
        have h2 : sizeOf (JSON.obj fields) = 1 + sizeOf fields := by simp
        have h3 : sizeOf ((k, v) : String × JSON) = 1 + sizeOf k + sizeOf v := by
          simp
        have hv : sizeOf v < sizeOf (JSON.obj fields) := by omega
        refine ⟨ihj v hv, ?_, ?_⟩
        · rintro pf rfl q hq
          obtain ⟨k', v'⟩ := q
          have h4 := List.sizeOf_lt_of_mem hq
          have h5 : sizeOf (JSON.obj pf) = 1 + sizeOf pf := by simp
          have h6 : sizeOf ((k', v') : String × JSON) =
              1 + sizeOf k' + sizeOf v' := by simp
          exact ihj v' (by omega)
        · rintro xs rfl x hx
          have h4 := List.sizeOf_lt_of_mem hx
          have h5 : sizeOf (JSON.arr xs) = 1 + sizeOf xs := by simp
          exact ihj x (by omega)
      have hbase_fix : ∀ e ∈ filterLoop fields [], EntryFixed e :=
        filterLoop_entries fields [] hvals (fun e he => absurd he (by simp))
      have hbase_nodup : ((filterLoop fields []).map Prod.fst).Nodup :=
        filterLoop_nodup fields [] (by simp)
      have hout_fix : ∀ e ∈ anyOfPost fields (filterLoop fields []),
          EntryFixed e := by
        intro e he
        rcases anyOfPost_mem fields _ e he with h1 | h1 | h1 | h1
        · exact hbase_fix e h1
        · exact entryFixed_of_post_key e (Or.inl h1)
        · exact entryFixed_of_post_key e (Or.inr (Or.inl h1))
        · exact entryFixed_of_post_key e (Or.inr (Or.inr h1))
      have hout_nodup :
          ((anyOfPost fields (filterLoop fields [])).map Prod.fst).Nodup :=
        anyOfPost_nodup fields _ hbase_nodup
      have hnokey : ∀ key : String, allowedKey key = false →
          assocGet (anyOfPost fields (filterLoop fields [])) key = none := by
        intro key hkey
        apply (assocGet_eq_none_iff _ _).mpr
        intro hmem
        obtain ⟨e, he, hke⟩ := List.mem_map.mp hmem
        have hall := (hout_fix e he).1
        rw [hke, hkey] at hall
        exact Bool.noConfusion hall
      have hco : coalesceAnyOf (anyOfPost fields (filterLoop fields [])) =
          none :=
        coalesceAnyOf_eq_none _ (hnokey "anyOf" (by decide))
          (hnokey "oneOf" (by decide)) (hnokey "allOf" (by decide))
      rw [sanitizeSchema.eq_1 fields, sanitizeSchema.eq_1,
        anyOfPost_none _ _ hco,
        filterLoop_of_fixed _ [] hout_fix (by simpa using hout_nodup)]
      simp

/-- C5: the schema sanitizer is idempotent — for every JSON-shaped
schema tree, sanitizing twice equals sanitizing once. -/
theorem sanitizeSchema_idempotent (j : JSON) :
    sanitizeSchema (sanitizeSchema j) = sanitizeSchema j :=
  sanitizeSchema_idem_aux (sizeOf j) j le_rfl
